import Mathlib

/-!
Verification development for the niobium command-runner engine
(`src/commandRunner.ts`).  Texts are modelled as `List Char` (written
`Str`).  Each definition is a shallow embedding of the correspondingly
named TypeScript function; effectful operations (process spawning,
signalling, file writes, UI job updates) are modelled by oracles passed
as arguments and by returned event traces / write descriptions.
-/

set_option maxHeartbeats 1000000

abbrev Str := List Char

/-- JavaScript `\w` word characters: ASCII letters, digits and underscore. -/
def isWordChar (c : Char) : Bool := c.isAlphanum || c = '_'

/-- Model of JavaScript `String.indexOf` for a single character:
`-1` when the character is absent, else the 0-based index of its first
occurrence. -/
def indexOfI (c : Char) : Str → Int
  | [] => -1
  | a :: r =>
    if a = c then 0
    else
      let k := indexOfI c r
      if k = -1 then -1 else k + 1

/-- Model of JavaScript `String.charAt`: the character at index `i`, a
null placeholder when out of range (JS returns the empty string there;
the placeholder never equals a bracket character, which is all the
callers inspect). -/
def charAt (s : Str) (i : Nat) : Char := (s.drop i).headD (Char.ofNat 0)

/-- Substring-occurrence test: does `p` occur contiguously in `s`?
Used to model JavaScript `String.includes`. -/
def hasMatch (p : Str) : Str → Bool
  | [] => p.isEmpty
  | c :: s' => p.isPrefixOf (c :: s') || hasMatch p s'

/-- Model of `command.includes(needle)` in the source. -/
def includesSub (needle hay : Str) : Bool := hasMatch needle hay

/- ### VariableStore: substitution (`processVariables`, commandRunner.ts 64-84) -/

/-- Model of one pass of JavaScript
`str.replace(new RegExp(escapedLiteral, 'g'), rep)` for a literal
pattern: scan left to right, replace each non-overlapping occurrence,
never rescanning the replacement text within the pass.  The patterns the
source builds (`\$\{KEY\}` and `\$KEY`) are literal for the
metacharacter-free variable names the configuration uses. -/
def replaceAllLitAux (p rep : Str) : Nat → Str → Str
  | _, [] => []
  | 0, s => s
  | fuel + 1, c :: s' =>
    if p ≠ [] ∧ p.isPrefixOf (c :: s') then
      rep ++ replaceAllLitAux p rep fuel (s'.drop (p.length - 1))
    else
      c :: replaceAllLitAux p rep fuel s'

/-- The replacement pass itself, with enough fuel for the whole input
(consuming at least one character per step, `s.length` always
suffices). -/
def replaceAllLit (p rep : Str) (s : Str) : Str := replaceAllLitAux p rep s.length s

/-- The last character of the matched text `"$" ++ k`, the left-hand side
of the regex word-boundary test `\b` that follows it. -/
def lastCharOf : Str → Char
  | [] => '$'
  | [c] => c
  | _ :: c :: r => lastCharOf (c :: r)

/-- JavaScript regex `\b` at the position right after a match of
`"$" ++ k`: the boundary holds iff exactly one of the neighbouring
characters is a word character (end of input counting as non-word). -/
def bAfter (k : Str) (rest : Str) : Bool :=
  match rest with
  | [] => isWordChar (lastCharOf k)
  | c :: _ => isWordChar (lastCharOf k) != isWordChar c

/-- Model of the second-pass replacement
`str.replace(new RegExp("\\$" ++ key ++ "\\b", 'g'), rep)`:
replace every occurrence of `"$" ++ k` that is followed by a word
boundary, scanning left to right without rescanning replacements. -/
def replaceBareAux (k rep : Str) : Nat → Str → Str
  | _, [] => []
  | 0, s => s
  | fuel + 1, c :: s' =>
    if ('$' :: k).isPrefixOf (c :: s') ∧ bAfter k (s'.drop k.length) then
      rep ++ replaceBareAux k rep fuel (s'.drop k.length)
    else
      c :: replaceBareAux k rep fuel s'

/-- The bare-pass replacement itself, with enough fuel for the whole
input. -/
def replaceBare (k rep : Str) (s : Str) : Str := replaceBareAux k rep s.length s

/-- The first-pass pattern `"${" ++ k ++ "}"` built by `processVariables`. -/
def bracedOf (k : Str) : Str := '$' :: '{' :: (k ++ ['}'])

/-- Model of `processVariables` (commandRunner.ts 64-84): two ordered
passes over all known variables — first every `${NAME}` occurrence is
replaced (one `replace` call per variable, in store order), then every
bare `$NAME` occurrence followed by a word boundary. -/
def processVariables (vars : List (Str × Str)) (s : Str) : Str :=
  let afterBraced := vars.foldl (fun acc kv => replaceAllLit (bracedOf kv.1) kv.2 acc) s
  vars.foldl (fun acc kv => replaceBare kv.1 kv.2 acc) afterBraced

/-- Occurrence test matching exactly the condition under which
`replaceBare` fires somewhere in `s`. -/
def hasBareMatch (k : Str) : Str → Bool
  | [] => false
  | c :: s' =>
    (('$' :: k).isPrefixOf (c :: s') && bAfter k (s'.drop k.length)) || hasBareMatch k s'

/- ### VariableStore: output-variable extraction (commandRunner.ts 91-114) -/

/-- The variable store: a map from variable name to value, modelling the
`VariableManager` singleton. -/
def VarStore := Str → Option Str

/-- Model of `VariableManager.setVariable`. -/
def setVariable (name value : Str) (store : VarStore) : VarStore :=
  fun n => if n = name then some value else store n

/-- Whitespace trimmed by JavaScript `String.trim` (ASCII portion). -/
def isTrimWs (c : Char) : Bool := c = ' ' || c = '\t' || c = '\n' || c = '\r'

/-- Model of JavaScript `String.trim`. -/
def trimL (s : Str) : Str :=
  ((s.dropWhile isTrimWs).reverse.dropWhile isTrimWs).reverse

/-- The marker text `"::set-output name=" ++ name ++ "::"` built by
`extractOutputVariables` as the fixed part of its regex. -/
def markerOf (name : Str) : Str :=
  "::set-output name=".data ++ name ++ "::".data

/-- Case-insensitive prefix test, modelling the `'i'` flag of the regex
(which applies to the whole pattern, the interpolated name included). -/
def ciIsPrefixOf (p s : Str) : Bool :=
  (p.map Char.toLower).isPrefixOf (s.map Char.toLower)

/-- JavaScript `.` (no `s` flag) does not match line terminators; the
capture group `(.*)` therefore stops at the end of the line. -/
def isLineTerm (c : Char) : Bool := c = '\n' || c = '\r'

/-- Model of `stdout.match(new RegExp("::set-output name=" ++ name ++ "::(.*)", 'i'))`:
the capture group of the leftmost match, `none` when the marker does not
occur. -/
def findMarkerCapture (name : Str) : Str → Option Str
  | [] => none
  | c :: rest =>
    if ciIsPrefixOf (markerOf name) (c :: rest) then
      some (((c :: rest).drop (markerOf name).length).takeWhile (fun ch => !isLineTerm ch))
    else
      findMarkerCapture name rest

/-- One step of the loop body of `extractOutputVariables` for a declared
output name: on a match with a truthy (non-empty) capture, call
`setVariable` with the trimmed value; otherwise do nothing.  The second
component logs every `setVariable` call made. -/
def extractStep (stdout : Str) (st : VarStore × List (Str × Str)) (name : Str) :
    VarStore × List (Str × Str) :=
  match findMarkerCapture name stdout with
  | some cap =>
    if cap ≠ [] then (setVariable name (trimL cap) st.1, st.2 ++ [(name, trimL cap)])
    else st
  | none => st

/-- Model of `extractOutputVariables` (commandRunner.ts 91-114): iterate
over the declared output names of the command, scanning the captured
stdout only.  Returns the updated store and the list of `setVariable`
calls performed. -/
def extractOutputVariables (outputs : List Str) (stdout : Str) (store : VarStore) :
    VarStore × List (Str × Str) :=
  outputs.foldl (extractStep stdout) (store, [])

/- ### Dependency gate (`areDependenciesSatisfied`, commandRunner.ts 122-137) -/

/-- Exit-code values as they can appear in the dynamically typed result
object: a number for process exits, a string for spawn-level OS error
codes such as ENOENT. -/
inductive ExitVal where
  | num (n : Nat)
  | str (s : Str)
deriving DecidableEq

/-- The `ExecutionResult` interface of commandRunner.ts (lines 15-20). -/
structure ExecutionResult where
  success : Bool
  output : Str
  error : Option Str := none
  exitCode : Option ExitVal := none
deriving DecidableEq

/-- A task (command) as the stage scheduler sees it: the configuration
fields consulted by `runStage` plus an oracle `runResult` giving the
`ExecutionResult` that `runCommand` returns when the task is actually
run (`runCommand` always returns a typed result, never throws). -/
structure TaskSpec where
  name : Str
  allow_failure : Bool
  depends_on : Option (List Str)
  runResult : ExecutionResult
deriving DecidableEq

/-- Model of `areDependenciesSatisfied` (commandRunner.ts 122-137): a
task with no `depends_on` field is always satisfied; otherwise every
named dependency must appear in the executed list (the source returns
`false` at the first missing one, which is the same boolean). -/
def areDependenciesSatisfied (t : TaskSpec) (executedCommands : List Str) : Bool :=
  match t.depends_on with
  | none => true
  | some deps => deps.all (fun d => executedCommands.contains d)

/- ### Stage scheduler (`runStage`, commandRunner.ts 607-842) -/

/-- Stage configuration: the fields of `StageConfig` consulted by
`runStage`, with the stage's resolved command list inline. -/
structure StageSpec where
  name : Str
  allow_failure : Bool
  parallel : Bool
  tasks : List TaskSpec
deriving DecidableEq

/-- Observable scheduling events of one stage run. -/
inductive StageEv where
  | checkDeps (name : Str) (snapshot : List Str) (ok : Bool)
  | runTask (name : Str) (allow_failure : Bool) (res : ExecutionResult)
  | pause
deriving DecidableEq

/-- The error message built at commandRunner.ts 674/747. -/
def depErrMsg (name : Str) : Str :=
  "Cannot run command \"".data ++ name ++
    "\" because its dependencies have not been executed".data

/-- The message at commandRunner.ts 689. -/
def skippedMsg (name : Str) : Str :=
  "Command skipped due to unsatisfied dependencies: ".data ++ name

/-- The warning at commandRunner.ts 642. -/
def noCommandsMsg (stageName : Str) : Str :=
  "No valid commands found in stage \"".data ++ stageName ++ "\"".data

/-- The error at commandRunner.ts 827. -/
def stageFailedMsg : Str := "Stage execution failed".data

/-- Outcome of the sequential command loop (commandRunner.ts 737-789):
either the early `return` taken when a non-tolerant task's dependencies
are unsatisfied (which leaves `runStage` immediately, before the
stage-level `allow_failure` handling), or normal loop termination with
the final `stageSuccess` flag.  Both carry the accumulated
`combinedOutput`, the final `executedCommands` list and the event
trace. -/
inductive SeqLoopOut where
  | earlyDepFail (err : Str) (combinedOutput : Str) (executed : List Str) (trace : List StageEv)
  | done (stageSuccess : Bool) (combinedOutput : Str) (executed : List Str) (trace : List StageEv)
deriving DecidableEq

/-- The trace component of a loop outcome. -/
def SeqLoopOut.trace : SeqLoopOut → List StageEv
  | .earlyDepFail _ _ _ tr => tr
  | .done _ _ _ tr => tr

/-- Prepend events to the trace of a loop outcome. -/
def SeqLoopOut.prependEvs (evs : List StageEv) : SeqLoopOut → SeqLoopOut
  | .earlyDepFail e c x tr => .earlyDepFail e c x (evs ++ tr)
  | .done b c x tr => .done b c x (evs ++ tr)

/-- Model of the sequential branch of `runStage` (commandRunner.ts
737-789).  For each command in declaration order: consult the dependency
gate against the current `executedCommands`; on failure either return
early (non-tolerant task) or `continue`; otherwise run the command,
append its output and its name, `break` when a non-tolerant task
failed, and otherwise insert the fixed 500 ms pause before the next
iteration. -/
def runStageSeqLoop : List TaskSpec → Str → List Str → SeqLoopOut
  | [], combinedOutput, executedCommands => .done true combinedOutput executedCommands []
  | t :: rest, combinedOutput, executedCommands =>
    if !areDependenciesSatisfied t executedCommands then
      if !t.allow_failure then
        .earlyDepFail (depErrMsg t.name) combinedOutput executedCommands
          [StageEv.checkDeps t.name executedCommands false]
      else
        SeqLoopOut.prependEvs [StageEv.checkDeps t.name executedCommands false]
          (runStageSeqLoop rest combinedOutput executedCommands)
    else
      let r := t.runResult
      let combined2 := combinedOutput ++ r.output ++ ['\n']
      let executed2 := executedCommands ++ [t.name]
      if !r.success && !t.allow_failure then
        .done false combined2 executed2
          [StageEv.checkDeps t.name executedCommands true,
           StageEv.runTask t.name t.allow_failure r]
      else
        SeqLoopOut.prependEvs
          [StageEv.checkDeps t.name executedCommands true,
           StageEv.runTask t.name t.allow_failure r,
           StageEv.pause]
          (runStageSeqLoop rest combined2 executed2)

/-- Result of the parallel branch of `runStage` (commandRunner.ts
664-736).  All `async` map callbacks run their synchronous prefix — the
dependency check included — before any command completes, so every check
sees the initial (empty) executed list; completions are modelled in
declaration order (the aggregation does not depend on completion
order). -/
structure ParRun where
  stageSuccess : Bool
  combinedOutput : Str
  executed : List Str
  trace : List StageEv
deriving DecidableEq

/-- Per-task result in the parallel branch: an unsatisfied non-tolerant
dependency yields a failed result; an unsatisfied tolerant dependency
yields a skip marked as success; otherwise the task runs. -/
def parResult (t : TaskSpec) (executed0 : List Str) : ExecutionResult :=
  if !areDependenciesSatisfied t executed0 then
    if !t.allow_failure then
      { success := false, output := [], error := some (depErrMsg t.name),
        exitCode := some (ExitVal.num 1) }
    else
      { success := true, output := skippedMsg t.name }
  else t.runResult

/-- `commands.find(c => c.name === result.commandName)`. -/
def findTaskByName (tasks : List TaskSpec) (n : Str) : Option TaskSpec :=
  tasks.find? (fun c => decide (c.name = n))

/-- Model of the parallel branch of `runStage` (commandRunner.ts
664-736): every task's dependency check consults the initial executed
list; `stageSuccess` is cleared by any failed result whose task (looked
up by name) does not allow failure; `executedCommands` collects, after
each `runCommand` returns, the names of exactly the tasks that ran.
The per-task try/catch around `runCommand` is not modelled because
`runCommand` always returns a typed result and never throws. -/
def runStageParallel (tasks : List TaskSpec) : ParRun :=
  let results := tasks.map (fun t => (t.name, parResult t []))
  { stageSuccess :=
      results.foldl
        (fun sf rn =>
          if !rn.2.success &&
              !(((findTaskByName tasks rn.1).map TaskSpec.allow_failure).getD false) then
            false
          else sf)
        true,
    combinedOutput :=
      results.foldl
        (fun acc rn =>
          acc ++ "\n--- Command: ".data ++ rn.1 ++ " ---\n".data ++ rn.2.output ++ ['\n'])
        [],
    executed :=
      tasks.filterMap (fun t =>
        if areDependenciesSatisfied t [] then some t.name else none),
    trace :=
      (tasks.map (fun t => StageEv.checkDeps t.name [] (areDependenciesSatisfied t [])))
        ++ tasks.filterMap (fun t =>
             if areDependenciesSatisfied t [] then
               some (StageEv.runTask t.name t.allow_failure t.runResult)
             else none) }

/-- How the stage's own job record is completed in the status sink:
`completeJobSuccess`, `completeJobFailure`, or neither (the early
dependency-failure return leaves the stage job running). -/
inductive JobMark where
  | notCompleted
  | success
  | failed
deriving DecidableEq

/-- What one `runStage` call produces: the returned `ExecutionResult`,
how the stage job was completed, and the run's internals. -/
structure StageRun where
  result : ExecutionResult
  mark : JobMark
  executed : List Str
  trace : List StageEv
deriving DecidableEq

/-- The tail of `runStage` (commandRunner.ts 799-841): a failed stage
with `allow_failure` returns success with the failure recorded only via
the failed job mark; a failed stage without it returns failure; a
successful stage returns success. -/
def stageFinish (stage : StageSpec) (stageSuccess : Bool) (combinedOutput : Str)
    (executed : List Str) (trace : List StageEv) : StageRun :=
  if !stageSuccess then
    if stage.allow_failure then
      { result := { success := true, output := combinedOutput },
        mark := JobMark.failed, executed := executed, trace := trace }
    else
      { result := { success := false, output := combinedOutput, error := some stageFailedMsg },
        mark := JobMark.failed, executed := executed, trace := trace }
  else
    { result := { success := true, output := combinedOutput },
      mark := JobMark.success, executed := executed, trace := trace }

/-- Model of `runStage` (commandRunner.ts 607-842) for a stage that was
found by name: an empty resolved command list is an error; otherwise the
parallel or sequential branch runs and the stage-level `allow_failure`
folding is applied — except on the sequential early dependency-failure
path, which returns a failed result directly. -/
def runStage (stage : StageSpec) : StageRun :=
  if stage.tasks.isEmpty then
    { result := { success := false, output := [], error := some (noCommandsMsg stage.name) },
      mark := JobMark.failed, executed := [], trace := [] }
  else if stage.parallel then
    let p := runStageParallel stage.tasks
    stageFinish stage p.stageSuccess p.combinedOutput p.executed p.trace
  else
    match runStageSeqLoop stage.tasks [] [] with
    | SeqLoopOut.earlyDepFail err combined executed tr =>
      { result := { success := false, output := combined, error := some err,
                    exitCode := some (ExitVal.num 1) },
        mark := JobMark.notCompleted, executed := executed, trace := tr }
    | SeqLoopOut.done sf combined executed tr => stageFinish stage sf combined executed tr

/-- Names of the tasks actually run (in order) according to a trace. -/
def runNames (tr : List StageEv) : List Str :=
  tr.filterMap (fun e =>
    match e with
    | StageEv.runTask n _ _ => some n
    | _ => none)

/-- Checks that every dependency snapshot in a trace equals the executed
list accumulated from the given initial list by the preceding run
events. -/
def consistentTrace (ex : List Str) : List StageEv → Bool
  | [] => true
  | StageEv.checkDeps _ snap _ :: tr => decide (snap = ex) && consistentTrace ex tr
  | StageEv.runTask n _ _ :: tr => consistentTrace (ex ++ [n]) tr
  | StageEv.pause :: tr => consistentTrace ex tr

/-- Is this event a task run? -/
def isRunEv : StageEv → Bool
  | StageEv.runTask _ _ _ => true
  | _ => false

/-- Is this event the inter-task pause? -/
def isPauseEv : StageEv → Bool
  | StageEv.pause => true
  | _ => false

/-- No two adjacent events of a list are both run events. -/
def noRunRun : List StageEv → Bool
  | e1 :: e2 :: tr => (!(isRunEv e1 && isRunEv e2)) && noRunRun (e2 :: tr)
  | _ => true

/- ### TaskExecutor (`runCommand`, commandRunner.ts 238-605, process path) -/

/-- Abstract behaviour of the spawned child process: either it runs and
exits with a code (having produced the given stdout/stderr text), or the
spawn itself fails at the OS level with an error carrying an optional
string code (such as ENOENT) and a message. -/
inductive ProcBehavior where
  | exits (code : Nat) (stdoutText stderrText : Str)
  | spawnError (osCode : Option Str) (message : Str)
deriving DecidableEq

/-- The error message built at commandRunner.ts 293. -/
def ignoredCwdMsg (cwd : Str) : Str :=
  "Working directory \"".data ++ cwd ++
    "\" is in an ignored path according to .niobiumignore".data

/-- `String(error)` for the `Error` rejected at commandRunner.ts 499
(`Command failed with exit code N`). -/
def commandFailedMsg (code : Nat) : Str :=
  "Error: Command failed with exit code ".data ++ (toString code).data

/-- `String(error)` for a spawn-level OS error object. -/
def spawnErrorString (message : Str) : Str := "Error: ".data ++ message

/-- Model of the process path of `runCommand` (commandRunner.ts 238-605).
The whole body is wrapped in try/catch, so the function is total and
always returns a typed `ExecutionResult`:
an ignored working directory fails fast before the spawn; exit code 0
resolves to success; a non-zero exit rejects an error object whose
`code`/`stdout`/`stderr` fields the catch block unpacks with JavaScript
truthiness (`error.code || 1`, `error.stderr || String(error)`,
`error.stdout || ''`); a spawn-level error object has no stdout/stderr
fields and its `code`, when present, is an OS error string. -/
def runCommand (cwdIgnored : Bool) (cwd : Str) (beh : ProcBehavior) : ExecutionResult :=
  if cwdIgnored then
    { success := false, output := [], error := some (ignoredCwdMsg cwd),
      exitCode := some (ExitVal.num 1) }
  else
    match beh with
    | ProcBehavior.exits code stdoutText stderrText =>
      if code = 0 then
        { success := true, output := stdoutText, exitCode := some (ExitVal.num 0) }
      else
        { success := false, output := stdoutText,
          error := some (if stderrText = [] then commandFailedMsg code else stderrText),
          exitCode := some (ExitVal.num code) }
    | ProcBehavior.spawnError osCode message =>
      { success := false, output := [],
        error := some (spawnErrorString message),
        exitCode := some (match osCode with
          | some s => if s = [] then ExitVal.num 1 else ExitVal.str s
          | none => ExitVal.num 1) }

/- ### Output persistence (`saveOutputToFile`, commandRunner.ts 149-236) -/

/-- JSON values as parsed by the model of `JSON.parse`.  Numbers are
kept at the lexeme level (which is canonical for the integer literals
the engine's fixtures use); strings hold the decoded characters. -/
inductive JsonVal where
  | jnull
  | jbool (b : Bool)
  | jnum (lexeme : Str)
  | jstr (s : Str)
  | jarr (items : List JsonVal)
  | jobj (fields : List (Str × JsonVal))

/-- JSON insignificant whitespace. -/
def jsonWs (c : Char) : Bool := c = ' ' || c = '\t' || c = '\n' || c = '\r'

/-- ASCII hexadecimal digit test. -/
def isHexDigitC (h : Char) : Bool :=
  h.isDigit || ('a' ≤ h && h ≤ 'f') || ('A' ≤ h && h ≤ 'F')

/-- Parse the body of a JSON string after the opening quote, decoding
escapes; returns the decoded content and the remaining input. -/
def parseStringBody : Str → Option (Str × Str)
  | [] => none
  | c :: r =>
    if c = '"' then some ([], r)
    else if c = '\\' then
      match r with
      | [] => none
      | e :: r2 =>
        let dec : Option Char :=
          if e = '"' then some '"'
          else if e = '\\' then some '\\'
          else if e = '/' then some '/'
          else if e = 'b' then some (Char.ofNat 8)
          else if e = 'f' then some (Char.ofNat 12)
          else if e = 'n' then some '\n'
          else if e = 'r' then some '\r'
          else if e = 't' then some '\t'
          else none
        match dec with
        | some d =>
          match parseStringBody r2 with
          | some (cs, rest) => some (d :: cs, rest)
          | none => none
        | none =>
          if e = 'u' then
            match r2 with
            | h1 :: h2 :: h3 :: h4 :: r3 =>
              if isHexDigitC h1 && isHexDigitC h2 && isHexDigitC h3 && isHexDigitC h4 then
                let hv : Char → Nat := fun h =>
                  if h.isDigit then h.toNat - 48
                  else if 'a' ≤ h ∧ h ≤ 'f' then h.toNat - 87
                  else h.toNat - 55
                match parseStringBody r3 with
                | some (cs, rest) =>
                  some (Char.ofNat (((hv h1 * 16 + hv h2) * 16 + hv h3) * 16 + hv h4) :: cs, rest)
                | none => none
              else none
            | _ => none
          else none
    else if c.toNat < 32 then none
    else
      match parseStringBody r with
      | some (cs, rest) => some (c :: cs, rest)
      | none => none

/-- Scan the digits of a JSON number starting at `s`; returns the lexeme
and the rest.  Follows the JSON grammar (optional minus, integer part
without leading zeros, optional fraction and exponent). -/
def parseNumber (s : Str) : Option (Str × Str) :=
  let (neg, s1) : Str × Str :=
    match s with
    | '-' :: r => (['-'], r)
    | _ => ([], s)
  match s1 with
  | [] => none
  | c :: r =>
    if !c.isDigit then none
    else
      let intPart : Str := if c = '0' then ['0'] else (c :: r).takeWhile Char.isDigit
      let afterInt := (c :: r).drop intPart.length
      let (fracPart, afterFrac) : Str × Str :=
        match afterInt with
        | '.' :: r2 =>
          let ds := r2.takeWhile Char.isDigit
          if ds = [] then (['?'], afterInt) else ('.' :: ds, r2.drop ds.length)
        | _ => ([], afterInt)
      if fracPart = ['?'] then none
      else
        let (expPart, afterExp) : Str × Str :=
          match afterFrac with
          | e :: r2 =>
            if e = 'e' || e = 'E' then
              let (sgn, r3) : Str × Str :=
                match r2 with
                | '+' :: r4 => (['+'], r4)
                | '-' :: r4 => (['-'], r4)
                | _ => ([], r2)
              let ds := r3.takeWhile Char.isDigit
              if ds = [] then (['?'], afterFrac) else (e :: (sgn ++ ds), r3.drop ds.length)
            else ([], afterFrac)
          | [] => ([], afterFrac)
        if expPart = ['?'] then none
        else some (neg ++ intPart ++ fracPart ++ expPart, afterExp)

mutual

/-- Fueled recursive-descent model of `JSON.parse` on one value;
`fuel` larger than the input length always suffices since every nested
call consumes input. -/
def parseVal (fuel : Nat) (s : Str) : Option (JsonVal × Str) :=
  match fuel with
  | 0 => none
  | fuel' + 1 =>
    match s.dropWhile jsonWs with
    | [] => none
    | c :: r =>
      if c = '{' then
        match r.dropWhile jsonWs with
        | '}' :: r2 => some (JsonVal.jobj [], r2)
        | _ => parseFields fuel' r []
      else if c = '[' then
        match r.dropWhile jsonWs with
        | ']' :: r2 => some (JsonVal.jarr [], r2)
        | _ => parseItems fuel' r []
      else if c = '"' then
        match parseStringBody r with
        | some (str, r2) => some (JsonVal.jstr str, r2)
        | none => none
      else if c = 't' then
        if "rue".data.isPrefixOf r then some (JsonVal.jbool true, r.drop 3) else none
      else if c = 'f' then
        if "alse".data.isPrefixOf r then some (JsonVal.jbool false, r.drop 4) else none
      else if c = 'n' then
        if "ull".data.isPrefixOf r then some (JsonVal.jnull, r.drop 3) else none
      else
        match parseNumber (c :: r) with
        | some (lex, r2) => some (JsonVal.jnum lex, r2)
        | none => none

/-- Parse the comma-separated items of a non-empty JSON array. -/
def parseItems (fuel : Nat) (s : Str) (acc : List JsonVal) : Option (JsonVal × Str) :=
  match fuel with
  | 0 => none
  | fuel' + 1 =>
    match parseVal fuel' s with
    | some (v, r) =>
      match r.dropWhile jsonWs with
      | ',' :: r2 => parseItems fuel' r2 (acc ++ [v])
      | ']' :: r2 => some (JsonVal.jarr (acc ++ [v]), r2)
      | _ => none
    | none => none

/-- Parse the comma-separated fields of a non-empty JSON object. -/
def parseFields (fuel : Nat) (s : Str) (acc : List (Str × JsonVal)) : Option (JsonVal × Str) :=
  match fuel with
  | 0 => none
  | fuel' + 1 =>
    match s.dropWhile jsonWs with
    | '"' :: r =>
      match parseStringBody r with
      | some (key, r2) =>
        match r2.dropWhile jsonWs with
        | ':' :: r3 =>
          match parseVal fuel' r3 with
          | some (v, r4) =>
            match r4.dropWhile jsonWs with
            | ',' :: r5 => parseFields fuel' r5 (acc ++ [(key, v)])
            | '}' :: r5 => some (JsonVal.jobj (acc ++ [(key, v)]), r5)
            | _ => none
          | none => none
        | _ => none
      | none => none
    | _ => none

end

/-- Model of `JSON.parse`: a single value followed only by whitespace. -/
def jsonParse (s : Str) : Option JsonVal :=
  match parseVal (s.length + 1) s with
  | some (v, rest) => if rest.dropWhile jsonWs = [] then some v else none
  | none => none

/-- Four-digit uppercase hex of a code point below 0x10000, as
`JSON.stringify` emits for escaped control characters. -/
def hex4 (n : Nat) : Str :=
  let dig : Nat → Char := fun d => if d < 10 then Char.ofNat (48 + d) else Char.ofNat (55 + d)
  [dig (n / 4096 % 16), dig (n / 256 % 16), dig (n / 16 % 16), dig (n % 16)]

/-- Escape one character the way `JSON.stringify` does inside string
literals. -/
def escapeSeq (c : Char) : Str :=
  if c = '"' then ['\\', '"']
  else if c = '\\' then ['\\', '\\']
  else if c = '\n' then ['\\', 'n']
  else if c = '\r' then ['\\', 'r']
  else if c = '\t' then ['\\', 't']
  else if c = Char.ofNat 8 then ['\\', 'b']
  else if c = Char.ofNat 12 then ['\\', 'f']
  else if c.toNat < 32 then '\\' :: 'u' :: hex4 c.toNat
  else [c]

/-- A quoted JSON string literal for the given content. -/
def quoteJson (s : Str) : Str :=
  '"' :: s.foldr (fun c acc => escapeSeq c ++ acc) ['"']

/-- Indentation of `i` spaces. -/
def indentSp (i : Nat) : Str := List.replicate i ' '

mutual

/-- Fueled model of `JSON.stringify(v, null, 2)` at indentation width
`i` (the indentation of the construct's closing bracket); the wrapper
below always supplies sufficient fuel. -/
def prettyValF (fuel : Nat) (i : Nat) (v : JsonVal) : Str :=
  match fuel with
  | 0 => []
  | fuel' + 1 =>
    match v with
    | JsonVal.jnull => "null".data
    | JsonVal.jbool true => "true".data
    | JsonVal.jbool false => "false".data
    | JsonVal.jnum lex => lex
    | JsonVal.jstr s => quoteJson s
    | JsonVal.jarr [] => "[]".data
    | JsonVal.jarr (x :: xs) =>
      '[' :: '\n' ::
        (indentSp (i + 2) ++ prettyItemsF fuel' (i + 2) x xs ++ '\n' :: (indentSp i ++ [']']))
    | JsonVal.jobj [] => "\x7b\x7d".data
    | JsonVal.jobj ((k, w) :: fs) =>
      '{' :: '\n' ::
        (indentSp (i + 2) ++ prettyFieldsF fuel' (i + 2) k w fs ++ '\n' :: (indentSp i ++ ['}']))

/-- Comma-and-newline separated array items at indentation `i`. -/
def prettyItemsF (fuel : Nat) (i : Nat) (x : JsonVal) (xs : List JsonVal) : Str :=
  match fuel with
  | 0 => []
  | fuel' + 1 =>
    match xs with
    | [] => prettyValF fuel' i x
    | y :: ys => prettyValF fuel' i x ++ ',' :: '\n' :: (indentSp i ++ prettyItemsF fuel' i y ys)

/-- Comma-and-newline separated object fields at indentation `i`. -/
def prettyFieldsF (fuel : Nat) (i : Nat) (k : Str) (v : JsonVal) (fs : List (Str × JsonVal)) :
    Str :=
  match fuel with
  | 0 => []
  | fuel' + 1 =>
    match fs with
    | [] => quoteJson k ++ ':' :: ' ' :: prettyValF fuel' i v
    | (k2, v2) :: gs =>
      quoteJson k ++ ':' :: ' ' :: prettyValF fuel' i v ++ ',' :: '\n' ::
        (indentSp i ++ prettyFieldsF fuel' i k2 v2 gs)

end

/-- Scan for the matching closer given the start character `sc`
(commandRunner.ts 188-205): depth counting that recognises only the
bracket kind of `sc`, returning how many characters the span occupies.
When `sc` is not an opening bracket no branch ever fires and the scan
fails, mirroring `endPos` staying `-1`. -/
def scanLen (sc : Char) (s : Str) (depth : Int) : Option Nat :=
  match s with
  | [] => none
  | c :: r =>
    if (c = '{' ∧ sc = '{') ∨ (c = '[' ∧ sc = '[') then
      match scanLen sc r (depth + 1) with
      | some n => some (n + 1)
      | none => none
    else if (c = '}' ∧ sc = '{') ∨ (c = ']' ∧ sc = '[') then
      if depth - 1 = 0 then some 1
      else
        match scanLen sc r (depth - 1) with
        | some n => some (n + 1)
        | none => none
    else
      match scanLen sc r depth with
      | some n => some (n + 1)
      | none => none

/-- Model of the span search of `saveOutputToFile` (commandRunner.ts
180-209): `jsonStart = Math.max(0, output.indexOf('{'))` (note the
clamp to 0 when no `{` exists), a `[` wins only when it precedes that
position, then the depth-counting scan from the start position. -/
def extractJsonSpan (output : Str) : Option Str :=
  let jsonStart : Int := max 0 (indexOfI '{' output)
  let jsonStartArray : Int := indexOfI '[' output
  let startPos : Int :=
    if jsonStartArray ≠ -1 ∧ (jsonStartArray < jsonStart ∨ jsonStart = -1) then jsonStartArray
    else jsonStart
  if startPos ≠ -1 then
    let sp := startPos.toNat
    let sc := charAt output sp
    match scanLen sc (output.drop sp) 0 with
    | some n => some ((output.drop sp).take n)
    | none => none
  else none

/-- The content written for a `.json` output file (commandRunner.ts
177-230): the located span pretty-printed when it parses as valid JSON,
otherwise the raw captured text.  The printer fuel `2 * span.length + 2`
covers any call chain into a value parsed from `span`, since the parser
consumes at least one character per node it builds. -/
def formatJsonContent (output : Str) : Str :=
  match extractJsonSpan output with
  | some span =>
    match jsonParse span with
    | some v => prettyValF (2 * span.length + 2) 0 v
    | none => output
  | none => output

/-- The results directory, relative to the workspace root. -/
def resultsDirName : Str := ".niobium_results".data

/-- `outputFilename.replace(/\.+$/, '')`. -/
def dropTrailingPeriods (s : Str) : Str := (s.reverse.dropWhile (fun c => c = '.')).reverse

/-- Helper for `path.basename`: Node ignores trailing separators. -/
def dropTrailingSlashes (s : Str) : Str := (s.reverse.dropWhile (fun c => c = '/')).reverse

/-- Model of POSIX `path.basename`. -/
def basenameOf (s : Str) : Str :=
  ((dropTrailingSlashes s).reverse.takeWhile (fun c => c != '/')).reverse

/-- Model of `path.join` for the two-segment case used here (Node
collapses an empty second segment). -/
def joinPath (a b : Str) : Str := if b = [] then a else a ++ '/' :: b

/-- Does `s` end with `suff`? -/
def endsWithL (suff s : Str) : Bool := suff.reverse.isPrefixOf s.reverse

/-- Model of `saveOutputToFile` (commandRunner.ts 149-236) for the
process path (no alternative filename): returns the relative path and
content of the single file written, or `none` when nothing is written
(no `output_file` configured, or the target path matches the ignore
predicate).  The target is always the results directory joined with the
basename of the variable-substituted, trailing-period-stripped
filename. -/
def saveOutputToFile (vars : List (Str × Str)) (isIgnored : Str → Bool)
    (output_file : Option Str) (output : Str) : Option (Str × Str) :=
  match output_file with
  | none => none
  | some f =>
    let outputFilename := processVariables vars f
    let sanitizedOutputFilename := dropTrailingPeriods outputFilename
    let baseFilename := basenameOf sanitizedOutputFilename
    let outputFilePath := joinPath resultsDirName baseFilename
    if isIgnored outputFilePath then none
    else if endsWithL ".json".data baseFilename then
      some (outputFilePath, formatJsonContent output)
    else
      some (outputFilePath, output)

/- ### ProcessTreeController (`killProcessAndChildren`, commandRunner.ts 1237-1444) -/

/-- JavaScript `Set.add` preserving insertion order. -/
def addElem (l : List Nat) (p : Nat) : List Nat := if p ∈ l then l else l ++ [p]

/-- Add many elements in order. -/
def addElems (l : List Nat) (ps : List Nat) : List Nat := ps.foldl addElem l

/-- The `criticalPorts` set built at commandRunner.ts 1261-1268:
detected ports, plus heuristic defaults for recognised dev-server
launcher patterns in the command string. -/
def criticalPortsOf (command : Str) (detectedPorts : List Nat) : List Nat :=
  let s := addElems [] detectedPorts
  let s :=
    if includesSub "npm run dev".data command || includesSub "vite".data command then
      addElem s 5173
    else s
  if includesSub "npm run start".data command || includesSub "node server".data command then
    addElem (addElem s 5000) 3000
  else s

/-- The kill set built at commandRunner.ts 1246-1294: the primary pid,
the already-discovered child pids, freshly enumerated descendants of the
primary pid, and — for every critical port in use — the owning pid (when
truthy and new) together with its descendants.  `findChildren` and
`portsInUse` are oracles for the platform enumeration primitives, whose
own failures the source swallows. -/
def computeAllPids (findChildren : Nat → List Nat) (portsInUse : List Nat → List (Nat × Nat))
    (pid : Nat) (childPids : List Nat) (command : Str) (detectedPorts : List Nat) : List Nat :=
  let allPids := addElems (addElem [] pid) childPids
  let allPids := addElems allPids (findChildren pid)
  let criticalPorts := criticalPortsOf command detectedPorts
  if criticalPorts ≠ [] then
    (portsInUse criticalPorts).foldl
      (fun acc info =>
        if info.2 ≠ 0 ∧ info.2 ∉ acc then addElems (addElem acc info.2) (findChildren info.2)
        else acc)
      allPids
  else allPids

/-- Observable actions of the POSIX termination routine, in order.  The
`ok` flag of a signal event records whether `process.kill` succeeded or
threw (ESRCH for an already-gone process); either way the routine
swallows the error and continues. -/
inductive KillEv where
  | sigterm (pid : Nat) (ok : Bool)
  | graceWait
  | sigkill (pid : Nat) (ok : Bool)
  | portSweep (port : Nat)
  | nodeCleanup (script : Str)
  | portForce (port : Nat)
deriving DecidableEq

/-- Approximation of the first capture of
`command.match(/(?:npm run\s+|node\s+)(\w+)/)` at one position:
the literal `npm run` (or, failing that, `node`) followed by at least
one whitespace character and a non-empty run of word characters. -/
def scriptNameAt (s : Str) : Option Str :=
  let tryBranch : Str → Option Str := fun lit =>
    if lit.isPrefixOf s then
      let r := s.drop lit.length
      let ws := r.takeWhile isTrimWs
      if ws ≠ [] then
        let w := (r.drop ws.length).takeWhile isWordChar
        if w ≠ [] then some w else none
      else none
    else none
  match tryBranch "npm run".data with
  | some w => some w
  | none => tryBranch "node".data

/-- Leftmost match of the dev-script-name pattern in the command. -/
def scriptNameOf : Str → Option Str
  | [] => none
  | c :: r =>
    match scriptNameAt (c :: r) with
    | some w => some w
    | none => scriptNameOf r

/-- Model of the POSIX branch of `killProcessAndChildren`
(commandRunner.ts 1369-1441) as the ordered list of actions it
performs: SIGTERM to every pid in the kill set (each in its own
try/catch), the fixed 500 ms grace wait, SIGKILL to every pid in the
set (again each error swallowed), then the best-effort sweeps: kill by
detected port, the Node script-name cleanup, and the forced kill by
critical port.  `termOk`/`killOk` are oracles for whether each
`process.kill` call succeeds. -/
def killProcessAndChildrenPosix (findChildren : Nat → List Nat)
    (portsInUse : List Nat → List (Nat × Nat)) (termOk killOk : Nat → Bool)
    (pid : Nat) (childPids : List Nat) (command : Str) (detectedPorts : List Nat) :
    List KillEv :=
  let allPids := computeAllPids findChildren portsInUse pid childPids command detectedPorts
  (allPids.map (fun p => KillEv.sigterm p (termOk p)))
    ++ [KillEv.graceWait]
    ++ (allPids.map (fun p => KillEv.sigkill p (killOk p)))
    ++ (detectedPorts.map KillEv.portSweep)
    ++ (if includesSub "npm".data command || includesSub "node".data command then
          match scriptNameOf command with
          | some w => [KillEv.nodeCleanup w]
          | none => []
        else [])
    ++ ((criticalPortsOf command detectedPorts).map KillEv.portForce)

/-- Erase the success flags of signal events: what the routine does,
independently of which processes had already exited. -/
def killEvSkeleton : KillEv → KillEv
  | KillEv.sigterm p _ => KillEv.sigterm p true
  | KillEv.sigkill p _ => KillEv.sigkill p true
  | e => e

/-- The outcome-independent shape of a kill trace. -/
def skeleton (tr : List KillEv) : List KillEv := tr.map killEvSkeleton

/-- Is this event a SIGTERM? -/
def isSigtermEv : KillEv → Bool
  | KillEv.sigterm _ _ => true
  | _ => false

/- ### Concrete fixtures used by the example-level theorems -/

/-- Sequential stage with `allow_failure` set whose single non-tolerant
task has an unsatisfied dependency. -/
def c1DepStage : StageSpec :=
  { name := "stage-one".data, allow_failure := true, parallel := false,
    tasks := [{ name := "task-b".data, allow_failure := false,
                depends_on := some ["task-a".data],
                runResult := { success := true, output := [] } }] }

/-- Sequential stage with `allow_failure` set whose single non-tolerant
task runs and fails. -/
def c1FailStage : StageSpec :=
  { name := "stage-one".data, allow_failure := true, parallel := false,
    tasks := [{ name := "task-b".data, allow_failure := false, depends_on := none,
                runResult := { success := false, output := "boom".data,
                               error := some "err".data,
                               exitCode := some (ExitVal.num 1) } }] }

/-- The captured text of the spec's JSON-persistence example. -/
def exampleC6Text : Str := "Log: ok \x7b\"a\":1,\"b\":[2,3]\x7d trailing".data

/-- `JSON.stringify(JSON.parse('\x7b"a":1,"b":[2,3]\x7d'), null, 2)`. -/
def exampleC6Pretty : Str := "\x7b\n  \"a\": 1,\n  \"b\": [\n    2,\n    3\n  ]\n\x7d".data

/-- A captured text whose only balanced bracket span is `[1,2]` but
which contains no `\x7b` and does not start with `[`. -/
def exampleC6RawText : Str := "Log: ok [1,2] end".data

/-! ## Supporting lemmas -/

theorem isPrefixOf_self_append (p r : Str) : p.isPrefixOf (p ++ r) = true := by
  rw [List.isPrefixOf_iff_prefix]
  exact List.prefix_append p r

theorem replaceAllLitAux_nil (p rep : Str) (fuel : Nat) :
    replaceAllLitAux p rep fuel [] = [] := by
  cases fuel <;> rfl

theorem replaceAllLitAux_succ_cons (p rep : Str) (fuel : Nat) (c : Char) (s' : Str) :
    replaceAllLitAux p rep (fuel + 1) (c :: s') =
      if p ≠ [] ∧ p.isPrefixOf (c :: s') then
        rep ++ replaceAllLitAux p rep fuel (s'.drop (p.length - 1))
      else
        c :: replaceAllLitAux p rep fuel s' := rfl

theorem replaceAllLitAux_fuel_eq (p rep : Str) :
    ∀ fuel1 fuel2 s, s.length ≤ fuel1 → s.length ≤ fuel2 →
      replaceAllLitAux p rep fuel1 s = replaceAllLitAux p rep fuel2 s := by
  intro fuel1
  induction fuel1 with
  | zero =>
    intro fuel2 s hs _
    have : s = [] := List.length_eq_zero.mp (Nat.le_zero.mp hs)
    subst this
    simp [replaceAllLitAux_nil]
  | succ f1 ih =>
    intro fuel2 s hs1 hs2
    match s with
    | [] => simp [replaceAllLitAux_nil]
    | c :: s' =>
      match fuel2 with
      | 0 => simp at hs2
      | f2 + 1 =>
        rw [replaceAllLitAux_succ_cons, replaceAllLitAux_succ_cons]
        simp only [List.length_cons] at hs1 hs2
        by_cases h : p ≠ [] ∧ p.isPrefixOf (c :: s') = true
        · rw [if_pos h, if_pos h]
          congr 1
          exact ih f2 (s'.drop (p.length - 1))
            (le_trans (by simp) (Nat.lt_succ_iff.mp hs1))
            (le_trans (by simp) (Nat.lt_succ_iff.mp hs2))
        · rw [if_neg h, if_neg h]
          congr 1
          exact ih f2 s' (Nat.lt_succ_iff.mp hs1) (Nat.lt_succ_iff.mp hs2)

theorem replaceAllLit_cons_pos {p : Str} (rep : Str) {c : Char} {s' : Str}
    (h1 : p ≠ []) (h2 : p.isPrefixOf (c :: s') = true) :
    replaceAllLit p rep (c :: s') = rep ++ replaceAllLit p rep (s'.drop (p.length - 1)) := by
  show replaceAllLitAux p rep (c :: s').length (c :: s') = _
  rw [List.length_cons, replaceAllLitAux_succ_cons, if_pos ⟨h1, h2⟩]
  congr 1
  exact replaceAllLitAux_fuel_eq p rep s'.length (s'.drop (p.length - 1)).length _
    (by simp) le_rfl

theorem replaceAllLit_cons_neg {p : Str} (rep : Str) {c : Char} {s' : Str}
    (h : p.isPrefixOf (c :: s') = false) :
    replaceAllLit p rep (c :: s') = c :: replaceAllLit p rep s' := by
  show replaceAllLitAux p rep (c :: s').length (c :: s') = _
  rw [List.length_cons, replaceAllLitAux_succ_cons, if_neg (by simp [h])]
  rfl

theorem replaceAllLit_of_no_match (p rep : Str) :
    ∀ s, hasMatch p s = false → replaceAllLit p rep s = s := by
  intro s
  induction s with
  | nil => intro _; rfl
  | cons c s' ih =>
    intro h
    simp only [hasMatch, Bool.or_eq_false_iff] at h
    rw [replaceAllLit_cons_neg rep h.1, ih h.2]

theorem replaceBareAux_nil (k rep : Str) (fuel : Nat) :
    replaceBareAux k rep fuel [] = [] := by
  cases fuel <;> rfl

theorem replaceBareAux_succ_cons (k rep : Str) (fuel : Nat) (c : Char) (s' : Str) :
    replaceBareAux k rep (fuel + 1) (c :: s') =
      if ('$' :: k).isPrefixOf (c :: s') ∧ bAfter k (s'.drop k.length) then
        rep ++ replaceBareAux k rep fuel (s'.drop k.length)
      else
        c :: replaceBareAux k rep fuel s' := rfl

theorem replaceBareAux_fuel_eq (k rep : Str) :
    ∀ fuel1 fuel2 s, s.length ≤ fuel1 → s.length ≤ fuel2 →
      replaceBareAux k rep fuel1 s = replaceBareAux k rep fuel2 s := by
  intro fuel1
  induction fuel1 with
  | zero =>
    intro fuel2 s hs _
    have : s = [] := List.length_eq_zero.mp (Nat.le_zero.mp hs)
    subst this
    simp [replaceBareAux_nil]
  | succ f1 ih =>
    intro fuel2 s hs1 hs2
    match s with
    | [] => simp [replaceBareAux_nil]
    | c :: s' =>
      match fuel2 with
      | 0 => simp at hs2
      | f2 + 1 =>
        rw [replaceBareAux_succ_cons, replaceBareAux_succ_cons]
        simp only [List.length_cons] at hs1 hs2
        by_cases h : ('$' :: k).isPrefixOf (c :: s') = true ∧ bAfter k (s'.drop k.length) = true
        · rw [if_pos h, if_pos h]
          congr 1
          exact ih f2 (s'.drop k.length)
            (le_trans (by simp) (Nat.lt_succ_iff.mp hs1))
            (le_trans (by simp) (Nat.lt_succ_iff.mp hs2))
        · rw [if_neg h, if_neg h]
          congr 1
          exact ih f2 s' (Nat.lt_succ_iff.mp hs1) (Nat.lt_succ_iff.mp hs2)

theorem replaceBare_cons_pos {k : Str} (rep : Str) {c : Char} {s' : Str}
    (h1 : ('$' :: k).isPrefixOf (c :: s') = true) (h2 : bAfter k (s'.drop k.length) = true) :
    replaceBare k rep (c :: s') = rep ++ replaceBare k rep (s'.drop k.length) := by
  show replaceBareAux k rep (c :: s').length (c :: s') = _
  rw [List.length_cons, replaceBareAux_succ_cons, if_pos ⟨h1, h2⟩]
  congr 1
  exact replaceBareAux_fuel_eq k rep s'.length (s'.drop k.length).length _ (by simp) le_rfl

theorem replaceBare_cons_neg {k : Str} (rep : Str) {c : Char} {s' : Str}
    (h : ¬(('$' :: k).isPrefixOf (c :: s') = true ∧ bAfter k (s'.drop k.length) = true)) :
    replaceBare k rep (c :: s') = c :: replaceBare k rep s' := by
  show replaceBareAux k rep (c :: s').length (c :: s') = _
  rw [List.length_cons, replaceBareAux_succ_cons, if_neg h]
  rfl

theorem replaceBare_of_no_match (k rep : Str) :
    ∀ s, hasBareMatch k s = false → replaceBare k rep s = s := by
  intro s
  induction s with
  | nil => intro _; rfl
  | cons c s' ih =>
    intro h
    simp only [hasBareMatch, Bool.or_eq_false_iff, Bool.and_eq_false_iff] at h
    have hneg : ¬(('$' :: k).isPrefixOf (c :: s') = true ∧ bAfter k (s'.drop k.length) = true) := by
      rcases h.1 with h' | h'
      · intro hc; rw [hc.1] at h'; exact Bool.false_ne_true h'.symm
      · intro hc; rw [hc.2] at h'; exact Bool.false_ne_true h'.symm
    rw [replaceBare_cons_neg rep hneg, ih h.2]

theorem dollar_isPrefixOf_cons_false {q : Str} {c : Char} {s' : Str} (hc : c ≠ '$') :
    ('$' :: q).isPrefixOf (c :: s') = false := by
  simp only [List.isPrefixOf, Bool.and_eq_false_iff]
  left
  simp [beq_eq_false_iff_ne]
  exact fun h => hc h.symm

theorem replaceAllLit_dollar_append (q rep : Str) :
    ∀ v t : Str, '$' ∉ v →
      replaceAllLit ('$' :: q) rep (v ++ t) = v ++ replaceAllLit ('$' :: q) rep t := by
  intro v
  induction v with
  | nil => intro t _; rfl
  | cons c v' ih =>
    intro t hv
    have hc : c ≠ '$' := by
      intro h; exact hv (h ▸ List.mem_cons_self c v')
    have hv' : '$' ∉ v' := fun h => hv (List.mem_cons_of_mem c h)
    rw [List.cons_append, replaceAllLit_cons_neg rep (dollar_isPrefixOf_cons_false hc),
      ih t hv', List.cons_append]

theorem replaceBare_dollar_append (k rep : Str) :
    ∀ v t : Str, '$' ∉ v →
      replaceBare k rep (v ++ t) = v ++ replaceBare k rep t := by
  intro v
  induction v with
  | nil => intro t _; rfl
  | cons c v' ih =>
    intro t hv
    have hc : c ≠ '$' := by
      intro h; exact hv (h ▸ List.mem_cons_self c v')
    have hv' : '$' ∉ v' := fun h => hv (List.mem_cons_of_mem c h)
    have hneg : ¬(('$' :: k).isPrefixOf (c :: (v' ++ t)) = true ∧
        bAfter k ((v' ++ t).drop k.length) = true) := by
      intro hcont
      rw [dollar_isPrefixOf_cons_false hc] at hcont
      exact Bool.false_ne_true hcont.1
    rw [List.cons_append, replaceBare_cons_neg rep hneg, ih t hv', List.cons_append]

theorem hasMatch_dollar_of_allWord (q : Str) :
    ∀ s, (∀ c ∈ s, isWordChar c = true) → hasMatch ('$' :: q) s = false := by
  intro s
  induction s with
  | nil => intro _; simp [hasMatch, List.isEmpty]
  | cons c s' ih =>
    intro h
    have hc : c ≠ '$' := by
      intro heq
      have := h c (List.mem_cons_self c s')
      rw [heq] at this
      simp [isWordChar] at this
    simp only [hasMatch, Bool.or_eq_false_iff]
    exact ⟨dollar_isPrefixOf_cons_false hc, ih (fun d hd => h d (List.mem_cons_of_mem c hd))⟩

theorem lastCharOf_mem : ∀ k : Str, k ≠ [] → lastCharOf k ∈ k := by
  intro k
  induction k with
  | nil => intro h; exact absurd rfl h
  | cons c k' ih =>
    intro _
    match k', ih with
    | [], _ => simp [lastCharOf]
    | d :: r, ih =>
      have := ih (by simp)
      rw [lastCharOf]
      exact List.mem_cons_of_mem c this

theorem dollar_not_word : isWordChar '$' = false := by decide

theorem nonword_isPrefixOf_allWord {c0 : Char} (q : Str) (hc0 : isWordChar c0 = false) :
    ∀ k : Str, (∀ c ∈ k, isWordChar c = true) → (c0 :: q).isPrefixOf k = false := by
  intro k hk
  cases k with
  | nil => rfl
  | cons c k' =>
    have hcw := hk c (List.mem_cons_self c k')
    have hne : c0 ≠ c := by
      intro h
      rw [h, hcw] at hc0
      exact Bool.false_ne_true hc0.symm
    simp only [List.isPrefixOf, Bool.and_eq_false_iff]
    left
    exact beq_eq_false_iff_ne.mpr hne

/-- C4.  The first conjunct: for a store with one variable whose name is
a non-empty word-character string and whose value contains no dollar
sign, a text carrying both a braced and a bare reference has both
substituted.  The second conjunct shows the pass order concretely: the
braced pass runs first and the bare pass afterwards over its result
(store A = "$B", B = "x": the braced occurrence of A is replaced first,
and the bare pass then rewrites the introduced `$B`), so braced forms
win whenever both passes could touch the same text. -/
theorem C4_two_ordered_passes :
    (∀ k v : Str, k ≠ [] → (∀ c ∈ k, isWordChar c = true) → '$' ∉ v →
      processVariables [(k, v)] (bracedOf k ++ (' ' :: '$' :: k)) = v ++ ' ' :: v)
    ∧ processVariables [(['A'], ['$', 'B']), (['B'], ['x'])] ['$', '{', 'A', '}'] = ['x'] := by
  constructor
  · intro k v hk hword hd
    show replaceBare k v
        (replaceAllLit (bracedOf k) v (bracedOf k ++ (' ' :: '$' :: k))) = v ++ ' ' :: v
    have hlen : ('{' :: (k ++ ['}'])).length = (bracedOf k).length - 1 := by
      simp [bracedOf]
    have hstepA : replaceAllLit (bracedOf k) v (bracedOf k ++ (' ' :: '$' :: k))
        = v ++ replaceAllLit (bracedOf k) v (' ' :: '$' :: k) := by
      have h2 : (bracedOf k).isPrefixOf ('$' :: ('{' :: (k ++ ['}']) ++ (' ' :: '$' :: k)))
          = true := isPrefixOf_self_append (bracedOf k) (' ' :: '$' :: k)
      have := @replaceAllLit_cons_pos (bracedOf k) v '$'
        ('{' :: (k ++ ['}']) ++ (' ' :: '$' :: k)) (by simp [bracedOf]) h2
      rw [show bracedOf k ++ (' ' :: '$' :: k)
          = '$' :: ('{' :: (k ++ ['}']) ++ (' ' :: '$' :: k)) from rfl, this,
        List.drop_left' hlen]
    have hnomatch : hasMatch (bracedOf k) (' ' :: '$' :: k) = false := by
      have h1 : (bracedOf k).isPrefixOf (' ' :: '$' :: k) = false :=
        dollar_isPrefixOf_cons_false (by decide)
      have h2 : (bracedOf k).isPrefixOf ('$' :: k) = false := by
        show (('$' :: '{' :: (k ++ ['}'])).isPrefixOf ('$' :: k)) = false
        simp only [List.isPrefixOf, Bool.and_eq_false_iff]
        right
        exact nonword_isPrefixOf_allWord (k ++ ['}']) (by decide) k hword
      have h3 : hasMatch (bracedOf k) k = false :=
        hasMatch_dollar_of_allWord ('{' :: (k ++ ['}'])) k hword
      simp only [hasMatch, Bool.or_eq_false_iff]
      exact ⟨h1, h2, h3⟩
    rw [hstepA, replaceAllLit_of_no_match _ _ _ hnomatch,
      replaceBare_dollar_append k v v (' ' :: '$' :: k) hd]
    have hsp : ('$' :: k).isPrefixOf (' ' :: '$' :: k) = false :=
      dollar_isPrefixOf_cons_false (by decide)
    have hneg : ¬(('$' :: k).isPrefixOf (' ' :: '$' :: k) = true ∧
        bAfter k (('$' :: k).drop k.length) = true) := by
      intro hc
      rw [hsp] at hc
      exact Bool.false_ne_true hc.1
    rw [replaceBare_cons_neg v hneg]
    have hself : ('$' :: k).isPrefixOf ('$' :: k) = true := by
      have := isPrefixOf_self_append ('$' :: k) []
      rwa [List.append_nil] at this
    have hb : bAfter k (k.drop k.length) = true := by
      rw [List.drop_length]
      show isWordChar (lastCharOf k) = true
      exact hword (lastCharOf k) (lastCharOf_mem k hk)
    rw [replaceBare_cons_pos v hself hb, List.drop_length]
    show v ++ (' ' :: (v ++ replaceBare k v [])) = v ++ ' ' :: v
    rw [show replaceBare k v [] = [] from rfl, List.append_nil]
  · decide

theorem C4_two_ordered_passes_witness :
    processVariables [("NAME".data, "val".data)]
        (bracedOf "NAME".data ++ (' ' :: '$' :: "NAME".data))
      = "val".data ++ ' ' :: "val".data :=
  C4_two_ordered_passes.1 "NAME".data "val".data (by decide) (by decide) (by decide)

theorem foldl_braced_id (u : Str) :
    ∀ vars : List (Str × Str), (∀ kv ∈ vars, hasMatch (bracedOf kv.1) u = false) →
      List.foldl (fun acc kv => replaceAllLit (bracedOf kv.1) kv.2 acc) u vars = u := by
  intro vars
  induction vars with
  | nil => intro _; rfl
  | cons kv rest ih =>
    intro h
    simp only [List.foldl_cons]
    rw [replaceAllLit_of_no_match _ _ u (h kv (List.mem_cons_self _ _))]
    exact ih (fun kv2 h2 => h kv2 (List.mem_cons_of_mem _ h2))

theorem foldl_bare_id (u : Str) :
    ∀ vars : List (Str × Str), (∀ kv ∈ vars, hasBareMatch kv.1 u = false) →
      List.foldl (fun acc kv => replaceBare kv.1 kv.2 acc) u vars = u := by
  intro vars
  induction vars with
  | nil => intro _; rfl
  | cons kv rest ih =>
    intro h
    simp only [List.foldl_cons]
    rw [replaceBare_of_no_match _ _ u (h kv (List.mem_cons_self _ _))]
    exact ih (fun kv2 h2 => h kv2 (List.mem_cons_of_mem _ h2))

/-- C5.  Once the substituted form of a text contains no remaining
braced occurrence and no remaining bare occurrence (with its word
boundary) for any known variable, substituting again changes nothing:
`substitute (substitute t) = substitute t`. -/
theorem C5_substitute_idempotent (vars : List (Str × Str)) (t : Str)
    (h : ∀ kv ∈ vars,
        hasMatch (bracedOf kv.1) (processVariables vars t) = false ∧
        hasBareMatch kv.1 (processVariables vars t) = false) :
    processVariables vars (processVariables vars t) = processVariables vars t := by
  show List.foldl (fun acc kv => replaceBare kv.1 kv.2 acc)
      (List.foldl (fun acc kv => replaceAllLit (bracedOf kv.1) kv.2 acc)
        (processVariables vars t) vars) vars = processVariables vars t
  rw [foldl_braced_id (processVariables vars t) vars (fun kv hkv => (h kv hkv).1)]
  exact foldl_bare_id (processVariables vars t) vars (fun kv hkv => (h kv hkv).2)

theorem C5_substitute_idempotent_witness :
    processVariables [(['A'], ['x'])] (processVariables [(['A'], ['x'])] ['$', '{', 'A', '}'])
      = processVariables [(['A'], ['x'])] ['$', '{', 'A', '}'] :=
  C5_substitute_idempotent [(['A'], ['x'])] ['$', '{', 'A', '}'] (by decide)

theorem extractStep_fst_other (stdout : Str) (st : VarStore × List (Str × Str)) (o n : Str)
    (hno : n ≠ o) : (extractStep stdout st o).1 n = st.1 n := by
  unfold extractStep
  cases hf : findMarkerCapture o stdout with
  | none => rfl
  | some cap =>
    by_cases hc : cap = []
    · simp [hc]
    · simp only [ne_eq, hc, not_false_eq_true, if_true]
      simp [setVariable, hno]

theorem extract_fold_fst_not_mem (stdout : Str) :
    ∀ (outputs : List Str) (st : VarStore × List (Str × Str)) (n : Str), n ∉ outputs →
      (outputs.foldl (extractStep stdout) st).1 n = st.1 n := by
  intro outputs
  induction outputs with
  | nil => intro st n _; rfl
  | cons o rest ih =>
    intro st n hn
    have hno : n ≠ o := fun h => hn (h ▸ List.mem_cons_self o rest)
    have hrest : n ∉ rest := fun h => hn (List.mem_cons_of_mem o h)
    simp only [List.foldl_cons]
    rw [ih _ n hrest]
    exact extractStep_fst_other stdout st o n hno

theorem extract_fold_fst_mem (stdout : Str) :
    ∀ (outputs : List Str) (st : VarStore × List (Str × Str)) (n : Str),
      outputs.Nodup → n ∈ outputs →
      (outputs.foldl (extractStep stdout) st).1 n =
        (match findMarkerCapture n stdout with
         | some cap => if cap ≠ [] then some (trimL cap) else st.1 n
         | none => st.1 n) := by
  intro outputs
  induction outputs with
  | nil => intro st n _ hn; exact absurd hn (List.not_mem_nil n)
  | cons o rest ih =>
    intro st n hnd hn
    have hnd' := List.nodup_cons.mp hnd
    simp only [List.foldl_cons]
    rcases List.mem_cons.mp hn with heq | hmem
    · subst heq
      rw [extract_fold_fst_not_mem stdout rest _ n hnd'.1]
      unfold extractStep
      cases hf : findMarkerCapture n stdout with
      | none => rfl
      | some cap =>
        by_cases hc : cap = []
        · simp [hc]
        · simp only [hc, if_pos]
          simp [setVariable, hc]
    · have hno : n ≠ o := by
        intro h
        exact hnd'.1 (h ▸ hmem)
      rw [ih _ n hnd'.2 hmem]
      cases hf : findMarkerCapture n stdout with
      | none => simp only []; exact extractStep_fst_other stdout st o n hno
      | some cap =>
        by_cases hc : cap = []
        · simp only [hc]
          simp only [ne_eq, not_true_eq_false, if_false]
          exact extractStep_fst_other stdout st o n hno
        · simp [hc]

theorem extract_fold_calls (stdout : Str) :
    ∀ (outputs : List Str) (st : VarStore × List (Str × Str)),
      ∀ p ∈ (outputs.foldl (extractStep stdout) st).2, p.1 ∈ outputs ∨ p ∈ st.2 := by
  intro outputs
  induction outputs with
  | nil => intro st p hp; exact Or.inr hp
  | cons o rest ih =>
    intro st p hp
    simp only [List.foldl_cons] at hp
    rcases ih (extractStep stdout st o) p hp with h | h
    · exact Or.inl (List.mem_cons_of_mem o h)
    · unfold extractStep at h
      cases hf : findMarkerCapture o stdout with
      | none => rw [hf] at h; exact Or.inr h
      | some cap =>
        rw [hf] at h
        by_cases hc : cap = []
        · simp only [hc, ne_eq, not_true_eq_false, if_false] at h
          exact Or.inr h
        · simp only [hc, ne_eq, not_false_eq_true, if_true] at h
          rcases List.mem_append.mp h with h2 | h2
          · exact Or.inr h2
          · have : p = (o, trimL cap) := List.mem_singleton.mp h2
            exact Or.inl (this ▸ List.mem_cons_self o rest)

/-- C3.  Output-variable extraction over the declared outputs of a task:
a name not declared in `outputs` is never touched (no `setVariable` call
targets it and its store entry is unchanged); a declared name ends up
bound to the trimmed capture of the leftmost marker occurrence in the
captured stdout exactly once (the store maps it to that single value),
with an empty (falsy) capture leaving the store untouched; every
`setVariable` call made is for a declared name; and the marker keyword
matches case-insensitively, as the final concrete conjunct shows. -/
theorem C3_output_extraction (outputs : List Str) (stdout : Str) (store : VarStore) :
    (∀ n, n ∉ outputs → (extractOutputVariables outputs stdout store).1 n = store n)
    ∧ (outputs.Nodup → ∀ n, n ∈ outputs →
        (extractOutputVariables outputs stdout store).1 n =
          (match findMarkerCapture n stdout with
           | some cap => if cap ≠ [] then some (trimL cap) else store n
           | none => store n))
    ∧ (∀ p, p ∈ (extractOutputVariables outputs stdout store).2 → p.1 ∈ outputs)
    ∧ (extractOutputVariables ["FOO".data] "xx ::SET-OUTPUT name=FOO:: hello! \nrest".data
        store).1 "FOO".data = some "hello!".data := by
  refine ⟨?_, ?_, ?_, ?_⟩
  · intro n hn
    exact extract_fold_fst_not_mem stdout outputs (store, []) n hn
  · intro hnd n hn
    exact extract_fold_fst_mem stdout outputs (store, []) n hnd hn
  · intro p hp
    rcases extract_fold_calls stdout outputs (store, []) p hp with h | h
    · exact h
    · exact absurd h (List.not_mem_nil p)
  · rfl

theorem C3_output_extraction_witness :
    (extractOutputVariables [['A']] "::set-output name=A:: v ".data (fun _ => none)).1 ['A']
      = some ['v'] := by
  have h := (C3_output_extraction [['A']] "::set-output name=A:: v ".data (fun _ => none)).2.1
    (by decide) ['A'] (by decide)
  rw [h]
  decide

/-- C7.  `runCommand` on the process path is total and returns a typed
`ExecutionResult` in every case: exit code 0 yields success (conjunct
1); any other exit code yields a failure carrying that exit code and
the stderr text — with `String(error)` supplying the message only when
stderr was empty and hence falsy (conjuncts 2 and 3); and a spawn-level
OS error is caught at the `runCommand` boundary and converted into a
failed result (conjunct 4). -/
theorem C7_typed_results (cwd stdoutText stderrText : Str) (code : Nat)
    (osCode : Option Str) (message : Str) :
    (runCommand false cwd (ProcBehavior.exits 0 stdoutText stderrText)
      = { success := true, output := stdoutText, error := none,
          exitCode := some (ExitVal.num 0) })
    ∧ (code ≠ 0 →
        runCommand false cwd (ProcBehavior.exits code stdoutText stderrText)
          = { success := false, output := stdoutText,
              error := some (if stderrText = [] then commandFailedMsg code else stderrText),
              exitCode := some (ExitVal.num code) })
    ∧ (code ≠ 0 → stderrText ≠ [] →
        (runCommand false cwd (ProcBehavior.exits code stdoutText stderrText)).error
          = some stderrText)
    ∧ ((runCommand false cwd (ProcBehavior.spawnError osCode message)).success = false
       ∧ (runCommand false cwd (ProcBehavior.spawnError osCode message)).error
          = some (spawnErrorString message)) := by
  refine ⟨rfl, ?_, ?_, rfl, rfl⟩
  · intro h
    simp [runCommand, h]
  · intro h h2
    simp [runCommand, h, h2]

theorem C7_typed_results_witness :
    runCommand false [] (ProcBehavior.exits 2 "out".data "boom".data)
      = { success := false, output := "out".data, error := some "boom".data,
          exitCode := some (ExitVal.num 2) } := by
  have h := (C7_typed_results [] "out".data "boom".data 2 none []).2.1 (by decide)
  rw [h]
  decide

theorem takeWhile_all_self (p : Char → Bool) :
    ∀ l : Str, (l.takeWhile p).all p = true := by
  intro l
  induction l with
  | nil => rfl
  | cons c r ih =>
    by_cases h : p c = true
    · simp [List.takeWhile_cons, h, ih]
    · simp [List.takeWhile_cons, h]

theorem basenameOf_no_slash (s : Str) : (basenameOf s).all (fun c => c != '/') = true := by
  unfold basenameOf
  rw [List.all_reverse]
  exact takeWhile_all_self _ _

/-- C10.  Whenever the process path persists a task's output, the
written path is exactly the fixed results directory joined with the
basename of the variable-substituted output filename stripped of
trailing periods, and that basename contains no path separator, so no
subdirectory is ever created under the results directory. -/
theorem C10_output_path (vars : List (Str × Str)) (isIgnored : Str → Bool) (f output : Str) :
    (match saveOutputToFile vars isIgnored (some f) output with
     | some pc =>
        pc.1 = joinPath resultsDirName
            (basenameOf (dropTrailingPeriods (processVariables vars f)))
        ∧ (basenameOf (dropTrailingPeriods (processVariables vars f))).all
            (fun c => c != '/') = true
     | none => True) := by
  simp only [saveOutputToFile]
  by_cases hi : isIgnored
      (joinPath resultsDirName (basenameOf (dropTrailingPeriods (processVariables vars f))))
      = true
  · simp [hi]
  · simp only [Bool.not_eq_true] at hi
    by_cases hj : endsWithL ".json".data
        (basenameOf (dropTrailingPeriods (processVariables vars f))) = true
    · simp [hi, hj, basenameOf_no_slash]
    · simp only [Bool.not_eq_true] at hj
      simp [hi, hj, basenameOf_no_slash]

/-- C1 counterexample: a sequential stage whose own `allowFailure` is
set, whose run hits an internal dependency failure (the early
`return` of commandRunner.ts 750-757), yet whose `runStage` result has
`success = false` — contradicting the claim that any internal failure
(a dependency failure included) is converted into stage-level
success. -/
theorem C1_counterexample :
    c1DepStage.allow_failure = true
    ∧ runStageSeqLoop c1DepStage.tasks [] []
        = SeqLoopOut.earlyDepFail (depErrMsg "task-b".data) [] []
            [StageEv.checkDeps "task-b".data [] false]
    ∧ (runStage c1DepStage).result.success = false := by
  decide

/-- C1 (amended).  For a stage with `allowFailure` set and a non-empty
task list: a failure that reaches the end of the stage loop — a
completed non-tolerant task failure in sequential mode, or any failure
in parallel mode (dependency failures included) — is converted into a
returned `success = true`, the underlying failure being recorded by the
stage job's failed completion mark; but in sequential mode an
unsatisfied dependency of a non-tolerant task returns a failed result
directly, bypassing the stage's `allowFailure` (and leaving the stage
job uncompleted). -/
theorem C1_allow_failure_amended (stage : StageSpec) (hAf : stage.allow_failure = true)
    (hne : stage.tasks ≠ []) :
    (∀ sf out ex tr, stage.parallel = false →
      runStageSeqLoop stage.tasks [] [] = SeqLoopOut.done sf out ex tr → sf = false →
        (runStage stage).result.success = true ∧ (runStage stage).mark = JobMark.failed)
    ∧ (stage.parallel = true → (runStageParallel stage.tasks).stageSuccess = false →
        (runStage stage).result.success = true ∧ (runStage stage).mark = JobMark.failed)
    ∧ (∀ err out ex tr, stage.parallel = false →
        runStageSeqLoop stage.tasks [] [] = SeqLoopOut.earlyDepFail err out ex tr →
          (runStage stage).result.success = false
          ∧ (runStage stage).result.error = some err
          ∧ (runStage stage).mark = JobMark.notCompleted) := by
  have hne' : stage.tasks.isEmpty = false := by
    simp [List.isEmpty_iff, hne]
  refine ⟨?_, ?_, ?_⟩
  · intro sf out ex tr hpar heq hsf
    subst hsf
    simp only [runStage, hne', Bool.false_eq_true, if_false, hpar, heq]
    simp [stageFinish, hAf]
  · intro hpar hsf
    simp only [runStage, hne', Bool.false_eq_true, if_false, hpar, if_true]
    simp [stageFinish, hsf, hAf]
  · intro err out ex tr hpar heq
    simp only [runStage, hne', Bool.false_eq_true, if_false, hpar, heq]
    simp

theorem C1_allow_failure_amended_witness :
    (runStage c1FailStage).result.success = true
    ∧ (runStage c1FailStage).mark = JobMark.failed :=
  (C1_allow_failure_amended c1FailStage (by decide) (by decide)).1 false _ _ _ rfl rfl rfl

theorem SeqLoopOut.trace_prependEvs (evs : List StageEv) (o : SeqLoopOut) :
    (SeqLoopOut.prependEvs evs o).trace = evs ++ o.trace := by
  cases o <;> rfl

theorem runNames_append (a b : List StageEv) :
    runNames (a ++ b) = runNames a ++ runNames b := by
  simp [runNames, List.filterMap_append]

theorem seq_runNames_sublist (tasks : List TaskSpec) :
    ∀ (combined : Str) (executed : List Str),
      List.Sublist (runNames (runStageSeqLoop tasks combined executed).trace)
        (tasks.map TaskSpec.name) := by
  induction tasks with
  | nil =>
    intro c e
    simp [runStageSeqLoop, SeqLoopOut.trace, runNames]
  | cons t rest ih =>
    intro c e
    rw [runStageSeqLoop]
    cases hds : areDependenciesSatisfied t e with
    | false =>
      cases haf : t.allow_failure with
      | false =>
        simp only [hds, haf, Bool.not_false, if_true]
        simp [SeqLoopOut.trace, runNames]
      | true =>
        simp only [hds, haf, Bool.not_false, Bool.not_true, if_true, Bool.false_eq_true,
          if_false]
        rw [SeqLoopOut.trace_prependEvs, runNames_append]
        have hnil : runNames [StageEv.checkDeps t.name e false] = [] := rfl
        rw [hnil, List.nil_append, List.map_cons]
        exact List.Sublist.cons t.name (ih c e)
    | true =>
      simp only [hds, Bool.not_true, Bool.false_eq_true, if_false]
      cases hbrk : (!t.runResult.success && !t.allow_failure) with
      | true =>
        simp only [hbrk, if_true]
        simp [SeqLoopOut.trace, runNames, List.map_cons]
      | false =>
        simp only [hbrk, Bool.false_eq_true, if_false]
        rw [SeqLoopOut.trace_prependEvs, runNames_append]
        have hpre : runNames
            [StageEv.checkDeps t.name e true,
             StageEv.runTask t.name t.allow_failure t.runResult,
             StageEv.pause] = [t.name] := rfl
        rw [hpre, List.map_cons]
        exact List.Sublist.cons₂ t.name (ih _ _)

theorem seq_consistentTrace (tasks : List TaskSpec) :
    ∀ (combined : Str) (executed : List Str),
      consistentTrace executed (runStageSeqLoop tasks combined executed).trace = true := by
  induction tasks with
  | nil =>
    intro c e
    rfl
  | cons t rest ih =>
    intro c e
    rw [runStageSeqLoop]
    cases hds : areDependenciesSatisfied t e with
    | false =>
      cases haf : t.allow_failure with
      | false =>
        simp only [hds, haf, Bool.not_false, if_true]
        simp [SeqLoopOut.trace, consistentTrace]
      | true =>
        simp only [hds, haf, Bool.not_false, Bool.not_true, if_true, Bool.false_eq_true,
          if_false]
        rw [SeqLoopOut.trace_prependEvs]
        simp only [List.cons_append, List.nil_append, consistentTrace]
        simp [ih c e]
    | true =>
      simp only [hds, Bool.not_true, Bool.false_eq_true, if_false]
      cases hbrk : (!t.runResult.success && !t.allow_failure) with
      | true =>
        simp only [hbrk, if_true]
        simp [SeqLoopOut.trace, consistentTrace]
      | false =>
        simp only [hbrk, Bool.false_eq_true, if_false]
        rw [SeqLoopOut.trace_prependEvs]
        simp only [List.cons_append, List.nil_append, consistentTrace]
        simp [ih]

theorem seq_outcome_shape (tasks : List TaskSpec) :
    ∀ (combined : Str) (executed : List Str),
      (match runStageSeqLoop tasks combined executed with
       | SeqLoopOut.earlyDepFail err _ _ tr =>
           ∃ tr' n s, tr = tr' ++ [StageEv.checkDeps n s false] ∧ err = depErrMsg n
       | SeqLoopOut.done true _ _ _ => True
       | SeqLoopOut.done false _ _ tr =>
           ∃ tr' n r, tr = tr' ++ [StageEv.runTask n false r] ∧ r.success = false) := by
  induction tasks with
  | nil =>
    intro c e
    trivial
  | cons t rest ih =>
    intro c e
    rw [runStageSeqLoop]
    cases hds : areDependenciesSatisfied t e with
    | false =>
      cases haf : t.allow_failure with
      | false =>
        simp only [hds, haf, Bool.not_false, if_true]
        exact ⟨[], t.name, e, rfl, rfl⟩
      | true =>
        simp only [hds, haf, Bool.not_false, Bool.not_true, if_true, Bool.false_eq_true,
          if_false]
        have hrec0 := ih c e
        cases hrec : runStageSeqLoop rest c e with
        | earlyDepFail err c2 x2 tr2 =>
          rw [hrec] at hrec0
          obtain ⟨tr', n, s, htr, herr⟩ := hrec0
          simp only [SeqLoopOut.prependEvs]
          subst htr
          exact ⟨StageEv.checkDeps t.name e false :: tr', n, s, by simp, herr⟩
        | done sf c2 x2 tr2 =>
          rw [hrec] at hrec0
          cases sf with
          | true => simp only [SeqLoopOut.prependEvs]
          | false =>
            obtain ⟨tr', n, r, htr, hr⟩ := hrec0
            simp only [SeqLoopOut.prependEvs]
            subst htr
            exact ⟨StageEv.checkDeps t.name e false :: tr', n, r, by simp, hr⟩
    | true =>
      simp only [hds, Bool.not_true, Bool.false_eq_true, if_false]
      cases hbrk : (!t.runResult.success && !t.allow_failure) with
      | true =>
        simp only [hbrk, if_true]
        have hparts := Bool.and_eq_true_iff.mp hbrk
        have hrs : t.runResult.success = false := by
          have := hparts.1
          cases hh : t.runResult.success
          · rfl
          · rw [hh] at this; exact absurd this (by decide)
        have haf : t.allow_failure = false := by
          have := hparts.2
          cases hh : t.allow_failure
          · rfl
          · rw [hh] at this; exact absurd this (by decide)
        exact ⟨[StageEv.checkDeps t.name e true], t.name, t.runResult, by simp [haf], hrs⟩
      | false =>
        simp only [hbrk, Bool.false_eq_true, if_false]
        have hrec0 := ih (c ++ t.runResult.output ++ ['\n']) (e ++ [t.name])
        cases hrec : runStageSeqLoop rest (c ++ t.runResult.output ++ ['\n'])
            (e ++ [t.name]) with
        | earlyDepFail err c2 x2 tr2 =>
          rw [hrec] at hrec0
          obtain ⟨tr', n, s, htr, herr⟩ := hrec0
          simp only [SeqLoopOut.prependEvs]
          subst htr
          refine ⟨StageEv.checkDeps t.name e true ::
            StageEv.runTask t.name t.allow_failure t.runResult ::
            StageEv.pause :: tr', n, s, by simp, herr⟩
        | done sf c2 x2 tr2 =>
          rw [hrec] at hrec0
          cases sf with
          | true => simp only [SeqLoopOut.prependEvs]
          | false =>
            obtain ⟨tr', n, r, htr, hr⟩ := hrec0
            simp only [SeqLoopOut.prependEvs]
            subst htr
            refine ⟨StageEv.checkDeps t.name e true ::
              StageEv.runTask t.name t.allow_failure t.runResult ::
              StageEv.pause :: tr', n, r, by simp, hr⟩

theorem noRunRun_cons_pause (l : List StageEv) :
    noRunRun (StageEv.pause :: l) = noRunRun l := by
  cases l with
  | nil => rfl
  | cons e l' => simp [noRunRun, isRunEv]

theorem seq_pause_between (tasks : List TaskSpec) :
    ∀ (combined : Str) (executed : List Str),
      noRunRun ((runStageSeqLoop tasks combined executed).trace.filter
        (fun e => isRunEv e || isPauseEv e)) = true := by
  induction tasks with
  | nil =>
    intro c e
    rfl
  | cons t rest ih =>
    intro c e
    rw [runStageSeqLoop]
    cases hds : areDependenciesSatisfied t e with
    | false =>
      cases haf : t.allow_failure with
      | false =>
        simp only [hds, haf, Bool.not_false, if_true]
        rfl
      | true =>
        simp only [hds, haf, Bool.not_false, Bool.not_true, if_true, Bool.false_eq_true,
          if_false]
        rw [SeqLoopOut.trace_prependEvs]
        simp only [List.cons_append, List.nil_append, List.filter_cons]
        simp only [isRunEv, isPauseEv, Bool.or_self, Bool.false_eq_true, if_false]
        exact ih c e
    | true =>
      simp only [hds, Bool.not_true, Bool.false_eq_true, if_false]
      cases hbrk : (!t.runResult.success && !t.allow_failure) with
      | true =>
        simp only [hbrk, if_true]
        rfl
      | false =>
        simp only [hbrk, Bool.false_eq_true, if_false]
        rw [SeqLoopOut.trace_prependEvs]
        simp only [List.cons_append, List.nil_append, List.filter_cons]
        simp only [isRunEv, isPauseEv, Bool.or_self, Bool.or_true, Bool.true_or,
          Bool.false_eq_true, if_false, if_true]
        rw [show ∀ l, noRunRun (StageEv.runTask t.name t.allow_failure t.runResult ::
            StageEv.pause :: l) = noRunRun (StageEv.pause :: l) from fun l => by
          simp [noRunRun, isRunEv], noRunRun_cons_pause]
        exact ih _ _

theorem seq_executed_eq (tasks : List TaskSpec) :
    ∀ (combined : Str) (executed : List Str),
      (match runStageSeqLoop tasks combined executed with
       | SeqLoopOut.earlyDepFail _ _ x tr => x = executed ++ runNames tr
       | SeqLoopOut.done _ _ x tr => x = executed ++ runNames tr) := by
  induction tasks with
  | nil =>
    intro c e
    simp [runStageSeqLoop, runNames]
  | cons t rest ih =>
    intro c e
    rw [runStageSeqLoop]
    cases hds : areDependenciesSatisfied t e with
    | false =>
      cases haf : t.allow_failure with
      | false =>
        simp only [hds, haf, Bool.not_false, if_true]
        simp [runNames]
      | true =>
        simp only [hds, haf, Bool.not_false, Bool.not_true, if_true, Bool.false_eq_true,
          if_false]
        have hrec0 := ih c e
        cases hrec : runStageSeqLoop rest c e with
        | earlyDepFail err c2 x2 tr2 =>
          rw [hrec] at hrec0
          simp only [SeqLoopOut.prependEvs]
          rw [hrec0]
          simp [runNames]
        | done sf c2 x2 tr2 =>
          rw [hrec] at hrec0
          simp only [SeqLoopOut.prependEvs]
          rw [hrec0]
          simp [runNames]
    | true =>
      simp only [hds, Bool.not_true, Bool.false_eq_true, if_false]
      cases hbrk : (!t.runResult.success && !t.allow_failure) with
      | true =>
        simp only [hbrk, if_true]
        simp [runNames]
      | false =>
        simp only [hbrk, Bool.false_eq_true, if_false]
        have hrec0 := ih (c ++ t.runResult.output ++ ['\n']) (e ++ [t.name])
        cases hrec : runStageSeqLoop rest (c ++ t.runResult.output ++ ['\n'])
            (e ++ [t.name]) with
        | earlyDepFail err c2 x2 tr2 =>
          rw [hrec] at hrec0
          simp only [SeqLoopOut.prependEvs]
          rw [hrec0]
          simp [runNames]
        | done sf c2 x2 tr2 =>
          rw [hrec] at hrec0
          simp only [SeqLoopOut.prependEvs]
          rw [hrec0]
          simp [runNames]

theorem runNames_checkDeps_map (tasks : List TaskSpec) :
    runNames (tasks.map
      (fun t => StageEv.checkDeps t.name [] (areDependenciesSatisfied t []))) = [] := by
  induction tasks with
  | nil => rfl
  | cons t rest ih =>
    simp only [List.map_cons, runNames, List.filterMap_cons] at ih ⊢
    exact ih

theorem runNames_runEvents_filterMap (tasks : List TaskSpec) :
    runNames (tasks.filterMap (fun t =>
      if areDependenciesSatisfied t [] then
        some (StageEv.runTask t.name t.allow_failure t.runResult)
      else none))
      = tasks.filterMap (fun t =>
          if areDependenciesSatisfied t [] then some t.name else none) := by
  induction tasks with
  | nil => rfl
  | cons t rest ih =>
    by_cases h : areDependenciesSatisfied t [] = true
    · simp only [List.filterMap_cons, h, if_true]
      simpa [runNames] using ih
    · simp only [Bool.not_eq_true] at h
      simp only [List.filterMap_cons, h, Bool.false_eq_true, if_false]
      exact ih

theorem par_runNames (tasks : List TaskSpec) :
    (runStageParallel tasks).executed = runNames (runStageParallel tasks).trace := by
  simp only [runStageParallel]
  rw [runNames_append, runNames_checkDeps_map, runNames_runEvents_filterMap]
  rfl

/-- C2.  Sequential stage scheduling: (1) the tasks actually run form an
in-order sublist of the declaration order — tasks start one at a time,
in declaration order; (2) every dependency check is consulted against
exactly the executed-name set accumulated so far in this run; (3) an
unsatisfied dependency of a non-tolerant task ends the run right at
that check — the trace ends with the failing check, so no remaining
task runs — and the loop reports that task's dependency error, while a
run ending unsuccessfully ends right after a completed failing
non-tolerant task; (4) between any two run tasks a fixed pause event
occurs (no two runs are adjacent among run/pause events). -/
theorem C2_sequential_semantics (tasks : List TaskSpec) (combined : Str)
    (executed : List Str) :
    List.Sublist (runNames (runStageSeqLoop tasks combined executed).trace)
        (tasks.map TaskSpec.name)
    ∧ consistentTrace executed (runStageSeqLoop tasks combined executed).trace = true
    ∧ (match runStageSeqLoop tasks combined executed with
       | SeqLoopOut.earlyDepFail err _ _ tr =>
           ∃ tr' n s, tr = tr' ++ [StageEv.checkDeps n s false] ∧ err = depErrMsg n
       | SeqLoopOut.done true _ _ _ => True
       | SeqLoopOut.done false _ _ tr =>
           ∃ tr' n r, tr = tr' ++ [StageEv.runTask n false r] ∧ r.success = false)
    ∧ noRunRun ((runStageSeqLoop tasks combined executed).trace.filter
        (fun e => isRunEv e || isPauseEv e)) = true :=
  ⟨seq_runNames_sublist tasks combined executed,
   seq_consistentTrace tasks combined executed,
   seq_outcome_shape tasks combined executed,
   seq_pause_between tasks combined executed⟩

/-- C9.  In both scheduling modes the final executed-name list equals
the initial one extended by the names of exactly those tasks for which
`runCommand` was invoked and returned (run events), in order — in
particular a task skipped over an unsatisfied dependency is never
added, so it can never satisfy a later `depends_on` in the same run. -/
theorem C9_executed_set_invariant (tasks : List TaskSpec) (combined : Str)
    (executed : List Str) :
    (match runStageSeqLoop tasks combined executed with
     | SeqLoopOut.earlyDepFail _ _ x tr => x = executed ++ runNames tr
     | SeqLoopOut.done _ _ x tr => x = executed ++ runNames tr)
    ∧ (runStageParallel tasks).executed = runNames (runStageParallel tasks).trace :=
  ⟨seq_executed_eq tasks combined executed, par_runNames tasks⟩

theorem indexOfI_cons (c a : Char) (r : Str) :
    indexOfI c (a :: r) =
      if a = c then 0 else (if indexOfI c r = -1 then -1 else indexOfI c r + 1) := rfl

theorem indexOfI_not_mem {c : Char} : ∀ {l : Str}, c ∉ l → indexOfI c l = -1 := by
  intro l
  induction l with
  | nil => intro _; rfl
  | cons a r ih =>
    intro h
    have ha : a ≠ c := fun hh => h (hh ▸ List.mem_cons_self a r)
    have hr : c ∉ r := fun hh => h (List.mem_cons_of_mem a hh)
    rw [indexOfI_cons, if_neg ha, ih hr, if_pos rfl]

theorem indexOfI_nonneg_of_ne {c : Char} :
    ∀ {l : Str}, indexOfI c l ≠ -1 → 0 ≤ indexOfI c l := by
  intro l
  induction l with
  | nil => intro h; exact absurd rfl h
  | cons a r ih =>
    intro h
    by_cases ha : a = c
    · rw [indexOfI_cons, if_pos ha]
    · rw [indexOfI_cons, if_neg ha] at h ⊢
      by_cases hk : indexOfI c r = -1
      · rw [if_pos hk] at h; exact absurd rfl h
      · rw [if_neg hk] at h ⊢
        have := ih hk
        omega

theorem indexOfI_brace_append {pre : Str} (rest : Str) (h : '{' ∉ pre) :
    indexOfI '{' (pre ++ '{' :: rest) = pre.length := by
  induction pre with
  | nil => simp [indexOfI_cons]
  | cons a pre' ih =>
    have ha : a ≠ '{' := fun hh => h (hh ▸ List.mem_cons_self a pre')
    have hpre : '{' ∉ pre' := fun hh => h (List.mem_cons_of_mem a hh)
    rw [List.cons_append, indexOfI_cons, if_neg ha, ih hpre,
      if_neg (by omega : ¬((pre'.length : Int) = -1))]
    simp

theorem indexOfI_bracket_after {pre : Str} (rest : Str) (h : '[' ∉ pre) :
    indexOfI '[' (pre ++ '{' :: rest) = -1
    ∨ (pre.length : Int) + 1 ≤ indexOfI '[' (pre ++ '{' :: rest) := by
  induction pre with
  | nil =>
    rw [List.nil_append, indexOfI_cons, if_neg (by decide : ¬('{' = '['))]
    by_cases hk : indexOfI '[' rest = -1
    · rw [if_pos hk]; exact Or.inl rfl
    · rw [if_neg hk]
      right
      have := indexOfI_nonneg_of_ne hk
      simp
      omega
  | cons a pre' ih =>
    have ha : a ≠ '[' := fun hh => h (hh ▸ List.mem_cons_self a pre')
    have hpre : '[' ∉ pre' := fun hh => h (List.mem_cons_of_mem a hh)
    rw [List.cons_append, indexOfI_cons, if_neg ha]
    rcases ih hpre with hcase | hcase
    · rw [if_pos hcase]; exact Or.inl rfl
    · have hne : indexOfI '[' (pre' ++ '{' :: rest) ≠ -1 := by omega
      rw [if_neg hne]
      right
      simp only [List.length_cons]
      push_cast
      omega

theorem indexOfI_zero_head {c : Char} :
    ∀ {l : Str}, indexOfI c l = 0 → l.head? = some c := by
  intro l
  induction l with
  | nil =>
    intro h
    rw [show indexOfI c [] = -1 from rfl] at h
    exact absurd h (by decide)
  | cons a r _ =>
    intro h
    by_cases ha : a = c
    · rw [ha]; rfl
    · rw [indexOfI_cons, if_neg ha] at h
      by_cases hk : indexOfI c r = -1
      · rw [if_pos hk] at h; exact absurd h (by decide)
      · rw [if_neg hk] at h
        have := indexOfI_nonneg_of_ne hk
        omega

theorem scanLen_nonbracket {sc : Char} (h1 : sc ≠ '{') (h2 : sc ≠ '[') :
    ∀ (s : Str) (depth : Int), scanLen sc s depth = none := by
  intro s
  induction s with
  | nil => intro _; rfl
  | cons c r ih =>
    intro depth
    rw [scanLen]
    rw [if_neg (by simp [h1, h2]), if_neg (by simp [h1, h2])]
    rw [ih depth]

theorem extractJsonSpan_log_irrelevant (pre rest : Str) (h1 : '{' ∉ pre) (h2 : '[' ∉ pre) :
    extractJsonSpan (pre ++ '{' :: rest) = extractJsonSpan ('{' :: rest) := by
  have hbrace : indexOfI '{' (pre ++ '{' :: rest) = pre.length := indexOfI_brace_append rest h1
  have hbraceR : indexOfI '{' ('{' :: rest) = 0 := by rw [indexOfI_cons, if_pos rfl]
  have hmaxL : max (0 : Int) (pre.length : Int) = (pre.length : Int) :=
    max_eq_right (Int.natCast_nonneg _)
  have hcondL : ¬(indexOfI '[' (pre ++ '{' :: rest) ≠ -1 ∧
      (indexOfI '[' (pre ++ '{' :: rest) < (pre.length : Int) ∨ (pre.length : Int) = -1)) := by
    rcases indexOfI_bracket_after rest h2 with hc | hc
    · intro hcon; exact hcon.1 hc
    · intro hcon
      rcases hcon.2 with hlt | heq
      · omega
      · omega
  have hcondR : ¬(indexOfI '[' ('{' :: rest) ≠ -1 ∧
      (indexOfI '[' ('{' :: rest) < (0 : Int) ∨ (0 : Int) = -1)) := by
    have hb : indexOfI '[' ('{' :: rest) = -1 ∨ (1 : Int) ≤ indexOfI '[' ('{' :: rest) := by
      have hx := @indexOfI_bracket_after [] rest (by simp)
      simpa using hx
    rcases hb with hc | hc
    · intro hcon; exact hcon.1 hc
    · intro hcon
      rcases hcon.2 with hlt | heq
      · omega
      · exact absurd heq (by decide)
  simp only [extractJsonSpan, hbrace, hbraceR, hmaxL]
  rw [if_neg hcondL]
  rw [show max (0 : Int) 0 = 0 from rfl, if_neg hcondR]
  rw [if_pos (show ((pre.length : Int)) ≠ -1 by omega),
    if_pos (show ((0 : Int)) ≠ -1 by decide)]
  have htn : ((pre.length : Int)).toNat = pre.length := Int.toNat_natCast pre.length
  rw [htn, show ((0 : Int)).toNat = 0 from rfl,
    show (pre ++ '{' :: rest).drop pre.length = '{' :: rest from List.drop_left pre _,
    show ('{' :: rest).drop 0 = '{' :: rest from rfl]
  have hca : charAt (pre ++ '{' :: rest) pre.length = '{' := by
    unfold charAt
    rw [List.drop_left pre ('{' :: rest)]
    rfl
  rw [hca]
  rfl

theorem formatJsonContent_no_brace (out : Str) (h1 : '{' ∉ out)
    (h2 : out.head? ≠ some '[') : formatJsonContent out = out := by
  suffices h : extractJsonSpan out = none by
    rw [formatJsonContent, h]
  have hidx : indexOfI '{' out = -1 := indexOfI_not_mem h1
  have hcond : ¬(indexOfI '[' out ≠ -1 ∧
      (indexOfI '[' out < max (0 : Int) (-1) ∨ max (0 : Int) (-1) = -1)) := by
    rw [show max (0 : Int) (-1) = 0 from rfl]
    intro hcon
    have hnn := indexOfI_nonneg_of_ne hcon.1
    rcases hcon.2 with hlt | heq
    · omega
    · exact absurd heq (by decide)
  simp only [extractJsonSpan, hidx]
  rw [if_neg hcond, show max (0 : Int) (-1) = 0 from rfl,
    if_pos (show ((0 : Int)) ≠ -1 by decide), show ((0 : Int)).toNat = 0 from rfl,
    List.drop_zero]
  cases hout : out with
  | nil => rfl
  | cons c r =>
    have hc1 : c ≠ '{' := by
      intro hh
      exact h1 (hout ▸ hh ▸ List.mem_cons_self c r)
    have hc2 : c ≠ '[' := by
      intro hh
      apply h2
      rw [hout, hh]
      rfl
    rw [show charAt (c :: r) 0 = c from rfl, scanLen_nonbracket hc1 hc2]

/-- C6 counterexample: the captured text `Log: ok [1,2] end` has the
outermost balanced bracket span `[1,2]`, which is valid JSON whose
two-space pretty print exists (second and third conjuncts) — yet,
because the text contains no `\x7b` and does not start with `[`, the
span search degenerates (`Math.max(0, indexOf('\x7b')) = 0`, and a `[`
can never precede position 0) and the raw text is persisted verbatim
(first conjunct), which differs from the pretty-printed span (last
conjunct).  This contradicts the claim for this input. -/
theorem C6_counterexample :
    saveOutputToFile [] (fun _ => false) (some "out.json".data) exampleC6RawText
      = some (".niobium_results/out.json".data, exampleC6RawText)
    ∧ jsonParse "[1,2]".data
      = some (JsonVal.jarr [JsonVal.jnum ['1'], JsonVal.jnum ['2']])
    ∧ formatJsonContent "[1,2]".data = "[\n  1,\n  2\n]".data
    ∧ (exampleC6RawText == "[\n  1,\n  2\n]".data) = false := by
  refine ⟨by decide, rfl, by decide, by decide⟩

/-- C6 (amended).  For `.json` output paths: the engine's span search
starts at the first `\x7b` of the captured output, a `[` winning only
when it precedes every `\x7b`; in particular a prefix containing
neither bracket character does not affect the located span (second
conjunct), the spec's concrete example persists exactly the
pretty-printed object and not the surrounding log text (first
conjunct), but when the text contains no `\x7b` at all the start
position degenerates to index 0, so unless the text itself starts with
`[` no span is found and the raw text is written verbatim (third
conjunct). -/
theorem C6_json_persistence_amended :
    (saveOutputToFile [] (fun _ => false) (some "result.json".data) exampleC6Text
      = some (".niobium_results/result.json".data, exampleC6Pretty))
    ∧ (∀ pre rest : Str, '{' ∉ pre → '[' ∉ pre →
        extractJsonSpan (pre ++ '{' :: rest) = extractJsonSpan ('{' :: rest))
    ∧ (∀ out : Str, '{' ∉ out → out.head? ≠ some '[' → formatJsonContent out = out) :=
  ⟨by decide,
   fun pre rest h1 h2 => extractJsonSpan_log_irrelevant pre rest h1 h2,
   fun out h1 h2 => formatJsonContent_no_brace out h1 h2⟩

theorem C6_json_persistence_amended_witness :
    extractJsonSpan ("Log: ".data ++ '{' :: "1\x7d".data)
      = extractJsonSpan ('{' :: "1\x7d".data)
    ∧ formatJsonContent "no json here".data = "no json here".data :=
  ⟨C6_json_persistence_amended.2.1 "Log: ".data "1\x7d".data (by decide) (by decide),
   C6_json_persistence_amended.2.2 "no json here".data (by decide) (by decide)⟩

theorem addElem_mem_mono {a : Nat} {l : List Nat} (h : a ∈ l) (p : Nat) : a ∈ addElem l p := by
  unfold addElem
  split
  · exact h
  · exact List.mem_append_left _ h

theorem addElem_self_mem (l : List Nat) (p : Nat) : p ∈ addElem l p := by
  unfold addElem
  split
  · assumption
  · exact List.mem_append_right _ (List.mem_singleton.mpr rfl)

theorem addElems_mem_mono {a : Nat} :
    ∀ (ps : List Nat) {l : List Nat}, a ∈ l → a ∈ addElems l ps := by
  intro ps
  induction ps with
  | nil => intro l h; exact h
  | cons p ps' ih =>
    intro l h
    exact ih (addElem_mem_mono h p)

theorem addElems_mem_right {p : Nat} :
    ∀ (ps : List Nat) (l : List Nat), p ∈ ps → p ∈ addElems l ps := by
  intro ps
  induction ps with
  | nil => intro l h; exact absurd h (List.not_mem_nil p)
  | cons q ps' ih =>
    intro l h
    rcases List.mem_cons.mp h with heq | hmem
    · exact addElems_mem_mono ps' (heq ▸ addElem_self_mem l q)
    · exact ih (addElem l q) hmem

theorem foldl_superset_mem {α : Type} (step : List Nat → α → List Nat)
    (hstep : ∀ acc x a, a ∈ acc → a ∈ step acc x) :
    ∀ (xs : List α) (l : List Nat) (a : Nat), a ∈ l → a ∈ xs.foldl step l := by
  intro xs
  induction xs with
  | nil => intro l a h; exact h
  | cons x xs' ih =>
    intro l a h
    exact ih (step l x) a (hstep l x a h)

theorem computeAllPids_mem_of_base {a : Nat} (findChildren : Nat → List Nat)
    (portsInUse : List Nat → List (Nat × Nat)) (pid : Nat) (childPids : List Nat)
    (command : Str) (detectedPorts : List Nat)
    (h : a ∈ addElems (addElems (addElem [] pid) childPids) (findChildren pid)) :
    a ∈ computeAllPids findChildren portsInUse pid childPids command detectedPorts := by
  unfold computeAllPids
  dsimp only
  split
  · refine foldl_superset_mem _ ?_ _ _ a h
    intro acc x b hb
    split
    · exact addElems_mem_mono _ (addElem_mem_mono hb _)
    · exact hb
  · exact h

theorem computeAllPids_mem_pid (findChildren : Nat → List Nat)
    (portsInUse : List Nat → List (Nat × Nat)) (pid : Nat) (childPids : List Nat)
    (command : Str) (detectedPorts : List Nat) :
    pid ∈ computeAllPids findChildren portsInUse pid childPids command detectedPorts :=
  computeAllPids_mem_of_base findChildren portsInUse pid childPids command detectedPorts
    (addElems_mem_mono _ (addElems_mem_mono _ (addElem_self_mem [] pid)))

theorem computeAllPids_mem_child {c : Nat} (findChildren : Nat → List Nat)
    (portsInUse : List Nat → List (Nat × Nat)) (pid : Nat) (childPids : List Nat)
    (command : Str) (detectedPorts : List Nat) (h : c ∈ childPids) :
    c ∈ computeAllPids findChildren portsInUse pid childPids command detectedPorts :=
  computeAllPids_mem_of_base findChildren portsInUse pid childPids command detectedPorts
    (addElems_mem_mono _ (addElems_mem_right childPids _ h))

/-- C8.  The POSIX termination routine: its observable action sequence
(signal targets and order) is identical whatever the outcome of each
individual `process.kill` — a vanished process (ESRCH) is swallowed and
treated as success, and no error escapes the routine (conjunct 1);
every pid in the kill set receives first a SIGTERM and later a SIGKILL
(conjunct 2); the kill set contains the primary pid (conjunct 3) and
every already-discovered child pid (conjunct 4); and the trace is
graduated — everything before the single grace wait is a SIGTERM, and
every SIGKILL comes after it (conjunct 5). -/
theorem C8_graduated_termination (findChildren : Nat → List Nat)
    (portsInUse : List Nat → List (Nat × Nat)) (termOk1 killOk1 termOk2 killOk2 : Nat → Bool)
    (pid : Nat) (childPids : List Nat) (command : Str) (detectedPorts : List Nat) :
    (skeleton (killProcessAndChildrenPosix findChildren portsInUse termOk1 killOk1 pid
        childPids command detectedPorts)
      = skeleton (killProcessAndChildrenPosix findChildren portsInUse termOk2 killOk2 pid
          childPids command detectedPorts))
    ∧ (∀ p, p ∈ computeAllPids findChildren portsInUse pid childPids command detectedPorts →
        KillEv.sigterm p (termOk1 p) ∈ killProcessAndChildrenPosix findChildren portsInUse
            termOk1 killOk1 pid childPids command detectedPorts
        ∧ KillEv.sigkill p (killOk1 p) ∈ killProcessAndChildrenPosix findChildren portsInUse
            termOk1 killOk1 pid childPids command detectedPorts)
    ∧ pid ∈ computeAllPids findChildren portsInUse pid childPids command detectedPorts
    ∧ (∀ c, c ∈ childPids →
        c ∈ computeAllPids findChildren portsInUse pid childPids command detectedPorts)
    ∧ (∃ pre post,
        killProcessAndChildrenPosix findChildren portsInUse termOk1 killOk1 pid
            childPids command detectedPorts = pre ++ KillEv.graceWait :: post
        ∧ (∀ e, e ∈ pre → isSigtermEv e = true)
        ∧ (∀ p b, KillEv.sigkill p b ∈ killProcessAndChildrenPosix findChildren portsInUse
            termOk1 killOk1 pid childPids command detectedPorts
              → KillEv.sigkill p b ∈ post)) := by
  refine ⟨?_, ?_, computeAllPids_mem_pid _ _ _ _ _ _,
    fun c hc => computeAllPids_mem_child _ _ _ _ _ _ hc, ?_⟩
  · simp only [killProcessAndChildrenPosix, skeleton, List.map_append, List.map_map]
    have h1 : ∀ t : Nat → Bool,
        (killEvSkeleton ∘ fun p => KillEv.sigterm p (t p)) = fun p => KillEv.sigterm p true :=
      fun t => funext fun p => rfl
    have h2 : ∀ t : Nat → Bool,
        (killEvSkeleton ∘ fun p => KillEv.sigkill p (t p)) = fun p => KillEv.sigkill p true :=
      fun t => funext fun p => rfl
    rw [h1 termOk1, h1 termOk2, h2 killOk1, h2 killOk2]
  · intro p hp
    constructor
    · simp only [killProcessAndChildrenPosix, List.mem_append]
      exact Or.inl (Or.inl (Or.inl (Or.inl (Or.inl (List.mem_map_of_mem _ hp)))))
    · simp only [killProcessAndChildrenPosix, List.mem_append]
      exact Or.inl (Or.inl (Or.inl (Or.inr (List.mem_map_of_mem _ hp))))
  · refine ⟨(computeAllPids findChildren portsInUse pid childPids command
        detectedPorts).map (fun p => KillEv.sigterm p (termOk1 p)),
      (computeAllPids findChildren portsInUse pid childPids command detectedPorts).map
          (fun p => KillEv.sigkill p (killOk1 p))
        ++ detectedPorts.map KillEv.portSweep
        ++ (if includesSub "npm".data command || includesSub "node".data command then
              match scriptNameOf command with
              | some w => [KillEv.nodeCleanup w]
              | none => []
            else [])
        ++ (criticalPortsOf command detectedPorts).map KillEv.portForce, ?_, ?_, ?_⟩
    · simp only [killProcessAndChildrenPosix, List.append_assoc, List.cons_append,
        List.nil_append, List.singleton_append]
    · intro e he
      rcases List.mem_map.mp he with ⟨p, _, hpe⟩
      rw [← hpe]
      rfl
    · intro p b hmem
      simp only [killProcessAndChildrenPosix, List.mem_append] at hmem
      simp only [List.mem_append]
      rcases hmem with ((((hA | hG) | hB) | hC) | hD) | hE
      · rcases List.mem_map.mp hA with ⟨q, _, hq⟩
        exact absurd hq (by intro hh; cases hh)
      · rcases List.mem_singleton.mp hG with h
        cases h
      · exact Or.inl (Or.inl (Or.inl hB))
      · exact Or.inl (Or.inl (Or.inr hC))
      · exact Or.inl (Or.inr hD)
      · exact Or.inr hE

theorem C8_graduated_termination_witness :
    KillEv.sigterm 11 true ∈ killProcessAndChildrenPosix (fun _ => []) (fun _ => [])
        (fun _ => true) (fun _ => true) 10 [11] "vite build".data [8080]
    ∧ KillEv.sigkill 11 true ∈ killProcessAndChildrenPosix (fun _ => []) (fun _ => [])
        (fun _ => true) (fun _ => true) 10 [11] "vite build".data [8080] :=
  (C8_graduated_termination (fun _ => []) (fun _ => []) (fun _ => true) (fun _ => true)
      (fun _ => true) (fun _ => true) 10 [11] "vite build".data [8080]).2.1 11 (by decide)
